import Mathlib

/-!
# GalaxyJS: the performance-adaptive animation core

A shallow embedding of `src/js/particle-pool.js`, `src/js/performance-monitor.js`,
`src/js/canvas-optimizer.js`, of `ParticleSystem.updateParticle`,
`ParticleSystem.applyForce` and the update pass and scheduling of
`ParticleSystem.animate` of `src/js/particles.js`, of
`PhysicsEngine.resolveCollision` of `src/js/animations.js`, and of the frame scheduling
of `src/js/advanced-animations.js`.

Conventions of the embedding:
* JavaScript numbers are modelled by exact rationals (`ℚ`), or by integers where the
  source only ever stores integral values; the values `Infinity` and friends are added
  explicitly where the source can produce them. Where a property depends on the rounding
  of IEEE-754 doubles (the frame rate of `PerformanceMonitor`), the operations round
  with `toDouble`.
* `Math.sqrt` is a function parameter of the definitions that call it; each theorem
  states the property of it that it uses. Where a claim asks whether a division by zero
  can happen, the division is checked and the function returns an `Option`.
* JavaScript objects with identity (pooled particles) live in an object store
  (`heap`); a reference to an object is its index in the store.
* `performance.now()` is an explicit argument.
* The host's frame queue (`requestAnimationFrame`, `cancelAnimationFrame`) is part of
  the state where scheduling matters.
-/

set_option autoImplicit false

/-! ## ParticlePool (`src/js/particle-pool.js`) -/

namespace ParticlePool

/-- The colour record `{ r, g, b }`. -/
structure Color where
  r : ℚ
  g : ℚ
  b : ℚ
  deriving DecidableEq, Repr

/-- The particle record built by `createParticle`. -/
structure Particle where
  x : ℚ
  y : ℚ
  vx : ℚ
  vy : ℚ
  radius : ℚ
  alpha : ℚ
  life : ℚ
  maxLife : ℚ
  color : Color
  angle : ℚ
  speed : ℚ
  mass : ℚ
  inUse : Bool
  deriving DecidableEq, Repr

/-- The `props` argument of `acquire`: every field may be omitted (`undefined`). -/
structure Props where
  x : Option ℚ := none
  y : Option ℚ := none
  vx : Option ℚ := none
  vy : Option ℚ := none
  radius : Option ℚ := none
  alpha : Option ℚ := none
  life : Option ℚ := none
  maxLife : Option ℚ := none
  color : Option Color := none
  angle : Option ℚ := none
  speed : Option ℚ := none
  mass : Option ℚ := none
  deriving DecidableEq, Repr

/-- Method `createParticle()`: a fresh record with the default values. -/
def createParticle : Particle :=
  { x := 0, y := 0, vx := 0, vy := 0, radius := 1, alpha := 1, life := 1, maxLife := 1,
    color := { r := 255, g := 255, b := 255 }, angle := 0, speed := 0, mass := 1,
    inUse := false }

/-- JavaScript `v || d` on a numeric property: `d` when `v` is `undefined` or `0`. -/
def orDefault (v : Option ℚ) (d : ℚ) : ℚ :=
  match v with
  | some a => if a = 0 then d else a
  | none => d

/-- The record that `Object.assign` writes over the particle in `acquire`; it names
all thirteen fields, so the earlier contents of the particle do not matter. -/
def configure (props : Props) : Particle :=
  { x := orDefault props.x 0
    y := orDefault props.y 0
    vx := orDefault props.vx 0
    vy := orDefault props.vy 0
    radius := orDefault props.radius 1
    alpha := match props.alpha with
      | some a => a
      | none => 1
    life := orDefault props.life 1
    maxLife := orDefault props.maxLife 1
    color := match props.color with
      | some c => c
      | none => { r := 255, g := 255, b := 255 }
    angle := orDefault props.angle 0
    speed := orDefault props.speed 0
    mass := orDefault props.mass 1
    inUse := true }

/-- Method `Set.prototype.add` on an insertion-ordered set. -/
def setAdd (s : List Nat) (id : Nat) : List Nat :=
  if id ∈ s then s else s ++ [id]

/-- Method `Set.prototype.delete` on an insertion-ordered set. -/
def setDelete (s : List Nat) (id : Nat) : List Nat :=
  s.filter (fun a => a != id)

/-- The state of a `ParticlePool` together with the objects it refers to.
`heap` is the object store (a particle reference is an index into it), `pool` is the
array `this.pool` (the free list, `push`/`pop` work at its end) and `active` is the
set `this.active` in insertion order. -/
structure Pool where
  heap : List Particle
  pool : List Nat
  active : List Nat
  deriving DecidableEq, Repr

/-- Constructor `new ParticlePool(initialSize)`: `initialSize` fresh particles on the free list. -/
def new (initialSize : Nat) : Pool :=
  { heap := List.replicate initialSize createParticle
    pool := List.range initialSize
    active := [] }

/-- Method `acquire(props)`: returns the new state and the reference handed out. -/
def acquire (s : Pool) (props : Props) : Pool × Nat :=
  let taken : Pool × Nat :=
    match s.pool.getLast? with
    | some id => ({ s with pool := s.pool.dropLast }, id)
    -- Pool exhausted, create new particle
    | none => ({ s with heap := s.heap ++ [createParticle] }, s.heap.length)
  ({ heap := taken.1.heap.set taken.2 (configure props)
     pool := taken.1.pool
     active := setAdd taken.1.active taken.2 }, taken.2)

/-- Method `release(particle)`; `none` is a `null`/`undefined` argument, and a reference that
names no object of the store is treated the same way. -/
def release (s : Pool) (particle : Option Nat) : Pool :=
  match particle with
  | none => s
  | some id =>
    match s.heap[id]? with
    | none => s
    | some obj =>
      if !obj.inUse then s
      else
        { heap := s.heap.set id { obj with inUse := false }
          pool := s.pool ++ [id]
          active := setDelete s.active id }

/-- Method `releaseMany(particles)`. -/
def releaseMany (s : Pool) (particles : List (Option Nat)) : Pool :=
  particles.foldl release s

/-- One iteration of the `forEach` in `clear`. -/
def clearOne (s : Pool) (id : Nat) : Pool :=
  match s.heap[id]? with
  | none => { s with pool := s.pool ++ [id] }
  | some obj => { s with heap := s.heap.set id { obj with inUse := false }, pool := s.pool ++ [id] }

/-- Method `clear()`. -/
def clear (s : Pool) : Pool :=
  { s.active.foldl clearOne s with active := [] }

/-- The result of `getStats()`. -/
structure Stats where
  poolSize : Nat
  activeCount : Nat
  totalAllocated : Nat
  deriving DecidableEq, Repr

/-- Method `getStats()`. -/
def getStats (s : Pool) : Stats :=
  { poolSize := s.pool.length
    activeCount := s.active.length
    totalAllocated := s.pool.length + s.active.length }

/-- A call made on the pool by a client. -/
inductive Op where
  | acquire (props : Props)
  | release (particle : Option Nat)
  | releaseMany (particles : List (Option Nat))
  | clear
  deriving DecidableEq, Repr

/-- The state after one call. -/
def step (s : Pool) : Op → Pool
  | .acquire props => (acquire s props).1
  | .release p => release s p
  | .releaseMany ps => releaseMany s ps
  | .clear => clear s

/-- The state after a sequence of calls. -/
def run (s : Pool) (ops : List Op) : Pool :=
  ops.foldl step s

/-- Is the argument of a release call `null` or a particle already handed out? -/
def handedOut (handed : List Nat) (particle : Option Nat) : Bool :=
  match particle with
  | none => true
  | some id => decide (id ∈ handed)

/-- Does a call pass only particles that an earlier `acquire` of this pool returned
(or `null`)? `handed` lists the references handed out so far. -/
def ownArgs (handed : List Nat) : Op → Bool
  | .release p => handedOut handed p
  | .releaseMany ps => ps.all (handedOut handed)
  | _ => true

/-- The references handed out once the call has been made. -/
def handedStep (s : Pool) (handed : List Nat) : Op → List Nat
  | .acquire props => (acquire s props).2 :: handed
  | _ => handed

/-- Does every `release`/`releaseMany` call of the sequence pass only particles that an
earlier `acquire` of this pool returned? -/
def releasesOwn (s : Pool) (handed : List Nat) : List Op → Bool
  | [] => true
  | op :: ops => ownArgs handed op && releasesOwn (step s op) (handedStep s handed op) ops

/-- The references handed out once the whole sequence has been run. -/
def handedAfter (s : Pool) (handed : List Nat) : List Op → List Nat
  | [] => handed
  | op :: ops => handedAfter (step s op) (handedStep s handed op) ops

/-- Is the call an `acquire`? -/
def Op.isAcquire : Op → Bool
  | .acquire _ => true
  | _ => false

/-- The representation invariant of a pool whose particles were handed out as
`handed`: the free list and the active set have no repetition and share no particle,
free particles carry `inUse = false`, active ones `inUse = true`, and every particle
handed out is still owned by the pool. -/
structure Inv (s : Pool) (handed : List Nat) : Prop where
  poolNodup : s.pool.Nodup
  activeNodup : s.active.Nodup
  disjoint : ∀ id ∈ s.pool, id ∉ s.active
  poolFree : ∀ id ∈ s.pool, ∃ obj, s.heap[id]? = some obj ∧ obj.inUse = false
  activeUsed : ∀ id ∈ s.active, ∃ obj, s.heap[id]? = some obj ∧ obj.inUse = true
  handedIn : ∀ id ∈ handed, id ∈ s.pool ∨ id ∈ s.active

/-- A driver: one `acquire` per entry of `propsList`; returns the final state and the
references handed out, in order. -/
def acquireMany (s : Pool) : List Props → Pool × List Nat
  | [] => (s, [])
  | props :: rest =>
    ((acquireMany (acquire s props).1 rest).1,
      (acquire s props).2 :: (acquireMany (acquire s props).1 rest).2)

/-- Two pool states agree up to the order of the free list: the same objects with the
same contents, the same active set, and free lists that are permutations of each
other. -/
def Pool.Same (s t : Pool) : Prop :=
  s.heap = t.heap ∧ s.active = t.active ∧ s.pool.Perm t.pool

end ParticlePool

/-! ## PerformanceMonitor (`src/js/performance-monitor.js`) -/

namespace PerformanceMonitor

/-- The quality tier, the value of `this.quality`. -/
inductive Quality where
  | low
  | medium
  | high
  deriving DecidableEq, Repr

/-- A JavaScript number: a finite value, `Infinity`, `-Infinity` or `NaN`. -/
inductive JsNum where
  | num (q : ℚ)
  | posInf
  | negInf
  | nan
  deriving DecidableEq, Repr

/-- JavaScript `a < b` for a finite `b`. -/
def JsNum.lt (a : JsNum) (b : ℚ) : Bool :=
  match a with
  | .num q => decide (q < b)
  | .posInf => false
  | .negInf => true
  | .nan => false

/-- JavaScript `a >= b` for a finite `b`. -/
def JsNum.ge (a : JsNum) (b : ℚ) : Bool :=
  match a with
  | .num q => decide (b ≤ q)
  | .posInf => true
  | .negInf => false
  | .nan => false

/-- The value `Math.round(1000 / avgDelta)` for a finite `avgDelta`, the quotient being
exact: dividing by zero gives `Infinity`, and `Math.round` rounds to the nearest integer,
halves upwards. The quotient as a double is in `fpsDouble`. -/
def roundedRate (avgDelta : ℚ) : JsNum :=
  if avgDelta = 0 then .posInf else .num (⌊1000 / avgDelta + 1 / 2⌋ : ℤ)

/-- The recognised entries of `this.options`. The callback `onQualityChange` only
reports a tier change to the caller and does not touch the monitor, so it is left out. -/
structure Options where
  targetFPS : ℚ := 60
  sampleSize : Nat := 60
  adaptiveQuality : Bool := true
  deriving DecidableEq, Repr

/-- The fields of a `PerformanceMonitor`; `frames` is the sample buffer, oldest first.
The constant table `qualityLevels` is not part of the mutable state. -/
structure Monitor where
  options : Options
  frames : List ℚ
  lastFrameTime : ℚ
  fps : JsNum
  quality : Quality
  frameCount : Nat
  isMonitoring : Bool
  deriving DecidableEq, Repr

/-- The constructor, run when `performance.now()` reads `now`. -/
def new (options : Options) (now : ℚ) : Monitor :=
  { options := options, frames := [], lastFrameTime := now, fps := .num 60,
    quality := .high, frameCount := 0, isMonitoring := false }

/-- Method `start()`, run when `performance.now()` reads `now`. -/
def start (m : Monitor) (now : ℚ) : Monitor :=
  { m with isMonitoring := true, lastFrameTime := now }

/-- Method `stop()`. -/
def stop (m : Monitor) : Monitor :=
  { m with isMonitoring := false }

/-- Method `adjustQuality()`: the chain of `if`/`else if` over `this.fps` and `this.quality`. -/
def adjustQuality (m : Monitor) : Monitor :=
  if m.fps.lt 30 && m.quality != .low then
    { m with quality := .low }
  else if m.fps.lt 50 && m.fps.ge 30 && m.quality == .high then
    { m with quality := .medium }
  else if m.fps.ge 55 && m.quality == .low then
    { m with quality := .medium }
  else if m.fps.ge 58 && m.quality != .high then
    { m with quality := .high }
  else m

/-- Method `recordFrame()`, run when `performance.now()` reads `now`, in exact
arithmetic: the delta, the sum of the buffer, the mean and the rate are not rounded.
`recordFrameDouble` is the same method with the rounding of doubles. -/
def recordFrame (m : Monitor) (now : ℚ) : Monitor :=
  if !m.isMonitoring then m
  else
    let delta := now - m.lastFrameTime
    let pushed := m.frames ++ [delta]
    let frames := if pushed.length > m.options.sampleSize then pushed.tail else pushed
    let frameCount := m.frameCount + 1
    let fps :=
      if frames.length > 0 then
        roundedRate (frames.foldl (fun a b => a + b) 0 / frames.length)
      else m.fps
    let m1 : Monitor :=
      { m with frames := frames, lastFrameTime := now, frameCount := frameCount, fps := fps }
    if m.options.adaptiveQuality && frameCount % 120 == 0 then adjustQuality m1 else m1

/-- Method `reset()`, run when `performance.now()` reads `now`. -/
def reset (m : Monitor) (now : ℚ) : Monitor :=
  { m with frames := [], frameCount := 0, fps := .num 60, lastFrameTime := now }

/-- A driver: one `recordFrame()` per entry of `gaps`, each called `gap` milliseconds
after the previous frame was recorded. -/
def recordSpaced (m : Monitor) (gaps : List ℚ) : Monitor :=
  gaps.foldl (fun m gap => recordFrame m (m.lastFrameTime + gap)) m

/-- The frame spacing of the hysteresis scenario: 120 frames at 70 fps, 120 at 40 fps,
120 at 45 fps and 120 at 70 fps. -/
def hysteresisGaps : List ℚ :=
  List.replicate 120 (1000 / 70) ++ List.replicate 120 (1000 / 40) ++
    List.replicate 120 (1000 / 45) ++ List.replicate 120 (1000 / 70)


/-- The monitor with its last-frame timestamp replaced. -/
def atTime (m : Monitor) (t : ℚ) : Monitor :=
  { m with lastFrameTime := t }

/-- One row of the table `qualityLevels`. -/
structure QualitySettings where
  particleMultiplier : ℚ
  canvasScale : ℚ
  deriving DecidableEq, Repr

/-- The table `this.qualityLevels` set up by the constructor. -/
def qualityLevels : Quality → QualitySettings
  | .low => { particleMultiplier := 3 / 10, canvasScale := 1 / 2 }
  | .medium => { particleMultiplier := 6 / 10, canvasScale := 3 / 4 }
  | .high => { particleMultiplier := 1, canvasScale := 1 }

/-- Method `getQualitySettings()`. -/
def getQualitySettings (m : Monitor) : QualitySettings :=
  qualityLevels m.quality

/-- JavaScript `v || d` on a navigator hint: `d` when `v` is `undefined` or `0`. -/
def hintOr (v : Option ℚ) (d : ℚ) : ℚ :=
  match v with
  | some a => if a = 0 then d else a
  | none => d

/-- Static method `getDeviceTier()`, as a function of `navigator.hardwareConcurrency`
and `navigator.deviceMemory` (`none` when the browser does not report the hint). -/
def getDeviceTier (hardwareConcurrency deviceMemory : Option ℚ) : Quality :=
  let cores := hintOr hardwareConcurrency 2
  let memory := hintOr deviceMemory 4
  if 8 ≤ cores ∧ 8 ≤ memory then .high
  else if 4 ≤ cores ∧ 4 ≤ memory then .medium
  else .low

/-- A call made on the monitor by a client; `now` is what `performance.now()` reads
during the call. -/
inductive Call where
  | start (now : ℚ)
  | stop
  | reset (now : ℚ)
  | recordFrame (now : ℚ)
  deriving DecidableEq, Repr

/-- The monitor after one call. -/
def call (m : Monitor) : Call → Monitor
  | .start now => start m now
  | .stop => stop m
  | .reset now => reset m now
  | .recordFrame now => recordFrame m now

/-- The monitor after a sequence of calls. -/
def runCalls (m : Monitor) (calls : List Call) : Monitor :=
  calls.foldl call m

/-- The deltas recorded since the last `reset()`, oldest first, once the call has been
made: a `recordFrame()` on a monitoring monitor records one delta, a `reset()` forgets
them all. -/
def recordedStep (m : Monitor) (log : List ℚ) : Call → List ℚ
  | .reset _ => []
  | .recordFrame now => if m.isMonitoring then log ++ [now - m.lastFrameTime] else log
  | _ => log

/-- The deltas recorded since the last `reset()`, oldest first, once the whole sequence
of calls has been made. -/
def recorded (m : Monitor) (log : List ℚ) : List Call → List ℚ
  | [] => log
  | c :: cs => recorded (call m c) (recordedStep m log c) cs

/-! ### The frame rate in double precision

JavaScript numbers are IEEE-754 binary64 values, and every arithmetic operation returns
the representable value nearest to the exact result, a tie going to the value with an
even significand. The definitions below add this rounding to the arithmetic of
`recordFrame()`. Timestamps are taken to be representable values; sums and differences
are taken to stay below `2 ^ 1024` in magnitude, so that only the quotient
`1000 / avgDelta` can overflow. -/

/-- Halving `n` until it drops below 2, at most `fuel` times, counting the steps. -/
def halvings : ℕ → ℕ → ℕ
  | 0, _ => 0
  | fuel + 1, n => if 2 ≤ n then halvings fuel (n / 2) + 1 else 0

/-- The position of the leading bit of a positive `n`, so that
`2 ^ bitLog n ≤ n < 2 ^ (bitLog n + 1)`. -/
def bitLog (n : ℕ) : ℕ := halvings n n

/-- The power `2 ^ e` for an integer exponent. -/
def pow2 (e : ℤ) : ℚ :=
  if 0 ≤ e then ((2 ^ e.toNat : ℕ) : ℚ) else 1 / ((2 ^ (-e).toNat : ℕ) : ℚ)

/-- The binary exponent of a positive `a`, so that `2 ^ e ≤ a < 2 ^ (e + 1)`: the
difference of the leading-bit positions of numerator and denominator, or one less. -/
def floorLog2 (a : ℚ) : ℤ :=
  let c : ℤ := (bitLog a.num.natAbs : ℤ) - (bitLog a.den : ℤ)
  if pow2 c ≤ a then c else c - 1

/-- Rounding to the nearest integer, a tie going to the even neighbour. -/
def roundHalfEven (x : ℚ) : ℤ :=
  let f : ℤ := ⌊x⌋
  let r : ℚ := x - f
  if r < 1 / 2 then f
  else if 1 / 2 < r then f + 1
  else if f % 2 = 0 then f else f + 1

/-- The binary64 value nearest to `q`: a significand of 53 bits, rounded to nearest with
ties to even, and a spacing that never goes below `2 ^ (-1074)` (gradual underflow). The
exponent has no upper limit here; a result of magnitude `2 ^ 1024` or more stands for an
overflow. -/
def toDouble (q : ℚ) : ℚ :=
  if q = 0 then 0
  else
    let e : ℤ := max (floorLog2 |q| - 52) (-1074)
    (roundHalfEven (q / pow2 e) : ℚ) * pow2 e

/-- The value of `frames.reduce((a, b) => a + b, 0)`: the deltas are added from the oldest
on, and every sum is rounded. -/
def sumDouble (frames : List ℚ) : ℚ :=
  frames.foldl (fun a b => toDouble (a + b)) 0

/-- The value of `Math.round(1000 / avgDelta)` with
`avgDelta = frames.reduce((a, b) => a + b, 0) / frames.length`, for a non-empty buffer.
Both quotients are rounded; a mean that rounds to zero keeps the sign of the sum, so the
rate is `Infinity` or `-Infinity`; `Math.round` itself is exact, halves going upwards. -/
def fpsDouble (frames : List ℚ) : JsNum :=
  let sum := sumDouble frames
  let avgDelta := toDouble (sum / frames.length)
  if avgDelta = 0 then (if sum < 0 then .negInf else .posInf)
  else
    let rate := toDouble (1000 / avgDelta)
    if pow2 1024 ≤ rate then .posInf
    else if rate ≤ -pow2 1024 then .negInf
    else .num (⌊rate + 1 / 2⌋ : ℤ)

/-- Method `recordFrame()` in double precision, run when `performance.now()` reads `now`:
the delta, the sum of the buffer, the mean and the rate are rounded as the operations of
the source round them. -/
def recordFrameDouble (m : Monitor) (now : ℚ) : Monitor :=
  if !m.isMonitoring then m
  else
    let delta := toDouble (now - m.lastFrameTime)
    let pushed := m.frames ++ [delta]
    let frames := if pushed.length > m.options.sampleSize then pushed.tail else pushed
    let frameCount := m.frameCount + 1
    let fps := if frames.length > 0 then fpsDouble frames else m.fps
    let m1 : Monitor :=
      { m with frames := frames, lastFrameTime := now, frameCount := frameCount, fps := fps }
    if m.options.adaptiveQuality && frameCount % 120 == 0 then adjustQuality m1 else m1

/-- A driver: one `recordFrame()` per entry of `nows`, the readings of `performance.now()`
at the successive calls. -/
def recordFramesDouble (m : Monitor) (nows : List ℚ) : Monitor :=
  nows.foldl recordFrameDouble m

/-- The deltas that calls of `recordFrame()` at the readings `nows` compute, `last` being
the time of the frame before the first of them. -/
def recordedDeltas (last : ℚ) : List ℚ → List ℚ
  | [] => []
  | now :: rest => toDouble (now - last) :: recordedDeltas now rest

/-- The readings `d`, `2 d`, ..., `n d` of a clock that starts at zero and ticks every
`d` milliseconds. -/
def ticks (n : ℕ) (d : ℚ) : List ℚ :=
  (List.range n).map (fun k => ((k : ℚ) + 1) * d)

end PerformanceMonitor

/-! ## CanvasOptimizer (`src/js/canvas-optimizer.js`) -/

namespace CanvasOptimizer

/-- A dirty rectangle `{ x, y, width, height }` in canvas pixel space. -/
structure Rect where
  x : ℤ
  y : ℤ
  width : ℤ
  height : ℤ
  deriving DecidableEq, Repr

/-- The part of a `CanvasOptimizer` that dirty-rectangle tracking uses: the size of
`this.canvas` and the list `this.dirtyRects`. -/
structure Optimizer where
  canvasWidth : ℕ
  canvasHeight : ℕ
  dirtyRects : List Rect
  deriving DecidableEq, Repr

/-- Method `markDirty(x, y, width, height)`. -/
def markDirty (o : Optimizer) (x y width height : ℚ) : Optimizer :=
  { o with dirtyRects := o.dirtyRects ++
      [{ x := ⌊x⌋, y := ⌊y⌋, width := ⌈width⌉, height := ⌈height⌉ }] }

/-- Method `markAllDirty()`. -/
def markAllDirty (o : Optimizer) : Optimizer :=
  { o with dirtyRects := [{ x := 0, y := 0, width := o.canvasWidth, height := o.canvasHeight }] }

/-- Method `clearDirtyRectsList()`. -/
def clearDirtyRectsList (o : Optimizer) : Optimizer :=
  { o with dirtyRects := [] }

/-- Method `rectsOverlap(r1, r2)`. -/
def rectsOverlap (r1 r2 : Rect) : Bool :=
  !(decide (r1.x + r1.width < r2.x) ||
    decide (r2.x + r2.width < r1.x) ||
    decide (r1.y + r1.height < r2.y) ||
    decide (r2.y + r2.height < r1.y))

/-- Method `mergeRects(r1, r2)`. -/
def mergeRects (r1 r2 : Rect) : Rect :=
  let x := min r1.x r2.x
  let y := min r1.y r2.y
  let right := max (r1.x + r1.width) (r2.x + r2.width)
  let bottom := max (r1.y + r1.height) (r2.y + r2.height)
  { x := x, y := y, width := right - x, height := bottom - y }

/-- The accumulator `minX, minY, maxX, maxY` of `getBoundingRect`. -/
structure Bounds where
  minX : ℤ
  minY : ℤ
  maxX : ℤ
  maxY : ℤ
  deriving DecidableEq, Repr

/-- One iteration of the `forEach` in `getBoundingRect`. -/
def extendBounds (b : Bounds) (rect : Rect) : Bounds :=
  { minX := min b.minX rect.x
    minY := min b.minY rect.y
    maxX := max b.maxX (rect.x + rect.width)
    maxY := max b.maxY (rect.y + rect.height) }

/-- Method `getBoundingRect(rects)`; `none` is `null`. The source starts the accumulator at
`Infinity`/`-Infinity`, so the first iteration stores the first rectangle's own edges;
the accumulator here starts from that state. -/
def getBoundingRect (rects : List Rect) : Option Rect :=
  match rects with
  | [] => none
  | first :: rest =>
    let b := rest.foldl extendBounds
      { minX := first.x, minY := first.y,
        maxX := first.x + first.width, maxY := first.y + first.height }
    some { x := b.minX, y := b.minY, width := b.maxX - b.minX, height := b.maxY - b.minY }

/-- The inner `for` loop of `mergeDirtyRects`: merge `current` into the first entry of
`merged` that it overlaps; `none` when it overlaps no entry (`didMerge` stays false). -/
def mergeInto (current : Rect) : List Rect → Option (List Rect)
  | [] => none
  | m :: ms =>
    if rectsOverlap current m then some (mergeRects current m :: ms)
    else (mergeInto current ms).map (fun rest => m :: rest)

/-- One iteration of the outer `for` loop of `mergeDirtyRects`. -/
def mergeStep (merged : List Rect) (current : Rect) : List Rect :=
  match mergeInto current merged with
  | some merged' => merged'
  | none => merged ++ [current]

/-- The copy `[...this.dirtyRects].sort((a, b) => a.x - b.x)`: a stable sort by `x`. -/
def sortByX (rects : List Rect) : List Rect :=
  rects.insertionSort (fun a b => a.x ≤ b.x)

/-- Method `mergeDirtyRects()`, as a function of `this.dirtyRects`. -/
def mergeDirtyRects (dirtyRects : List Rect) : List Rect :=
  if dirtyRects.length = 0 then []
  else if dirtyRects.length = 1 then dirtyRects
  -- Simple merge: combine all into one if too many
  else if dirtyRects.length > 10 then
    match getBoundingRect dirtyRects with
    | some bounds => [bounds]
    | none => []
  -- Otherwise use basic overlap detection
  else (sortByX dirtyRects).foldl mergeStep []

/-- Method `clearDirtyRegions()`: the rectangles handed to `ctx.clearRect`, in call order. -/
def clearDirtyRegions (dirtyRects : List Rect) : List Rect :=
  if dirtyRects.length = 0 then [] else mergeDirtyRects dirtyRects

/-- The point `(px, py)` lies in the region that `ctx.clearRect(r.x, r.y, r.width,
r.height)` clears: the rectangle spanned by the corners `(x, y)` and
`(x + width, y + height)`, whatever the signs of `width` and `height`. -/
def Rect.covers (r : Rect) (px py : ℚ) : Prop :=
  ((min r.x (r.x + r.width) : ℤ) : ℚ) ≤ px ∧ px < ((max r.x (r.x + r.width) : ℤ) : ℚ) ∧
  ((min r.y (r.y + r.height) : ℤ) : ℚ) ≤ py ∧ py < ((max r.y (r.y + r.height) : ℤ) : ℚ)

instance (r : Rect) (px py : ℚ) : Decidable (r.covers px py) := by
  unfold Rect.covers
  infer_instance

/-- The eleven unit squares on the diagonal from (0, 0) to (10, 10). -/
def diagonalSquares : List Rect :=
  (List.range 11).map (fun i => { x := i, y := i, width := 1, height := 1 })

/-- The rectangle `r` has non-negative width and height. -/
def Rect.NonNeg (r : Rect) : Prop :=
  0 ≤ r.width ∧ 0 ≤ r.height

/-- The rectangle `r` has non-negative size and lies inside the rectangle `b`. -/
def Rect.Within (b r : Rect) : Prop :=
  r.NonNeg ∧ b.x ≤ r.x ∧ r.x + r.width ≤ b.x + b.width ∧
    b.y ≤ r.y ∧ r.y + r.height ≤ b.y + b.height

/-- What one call of the draw callback does: the optimizer it leaves behind (the
callback may call `markDirty` and the other methods) and whether it threw. -/
structure DrawOutcome where
  optimizer : Optimizer
  threw : Bool
  deriving DecidableEq, Repr

/-- The state of the frame loop built by `createOptimizedLoop(drawCallback)`: the
optimizer, the closure variable `lastFrameTime`, the number of `loop` callbacks queued
with `requestAnimationFrame`, and the rectangles cleared on the drawing surface so far. -/
structure LoopState where
  optimizer : Optimizer
  lastFrameTime : ℚ
  queued : ℕ
  cleared : List Rect
  deriving DecidableEq, Repr

/-- The result of one run of `loop(currentTime)`: the state it leaves and whether an
exception escaped from it. -/
structure FrameResult where
  state : LoopState
  escaped : Bool
  deriving DecidableEq, Repr

/-- Method `createOptimizedLoop(drawCallback)`: the first `requestAnimationFrame(loop)`. -/
def createOptimizedLoop (o : Optimizer) : LoopState :=
  { optimizer := o, lastFrameTime := 0, queued := 1, cleared := [] }

/-- One run of the closure `loop(currentTime)`, fired by the host from the queue. The
source has no `try`/`catch`: when the draw callback throws, the statements after it are
not executed and the exception leaves `loop`. -/
def loop (drawCallback : ℚ → Optimizer → DrawOutcome) (s : LoopState) (currentTime : ℚ) :
    FrameResult :=
  let deltaTime := currentTime - s.lastFrameTime
  -- Clear dirty regions
  let cleared := s.cleared ++ clearDirtyRegions s.optimizer.dirtyRects
  -- Draw callback should mark dirty regions
  let drawn := drawCallback deltaTime s.optimizer
  if drawn.threw then
    { state := { optimizer := drawn.optimizer, lastFrameTime := currentTime,
                 queued := s.queued - 1, cleared := cleared },
      escaped := true }
  else
    -- Clear dirty rects list for next frame
    { state := { optimizer := clearDirtyRectsList drawn.optimizer,
                 lastFrameTime := currentTime,
                 queued := s.queued - 1 + 1, cleared := cleared },
      escaped := false }

/-- The constructor, for a canvas of the given size: no rectangle is dirty yet. -/
def new (canvasWidth canvasHeight : ℕ) : Optimizer :=
  { canvasWidth := canvasWidth, canvasHeight := canvasHeight, dirtyRects := [] }

/-- A marking call made on the optimizer by a client. -/
inductive Mark where
  | markDirty (x y width height : ℚ)
  | markAllDirty
  deriving DecidableEq, Repr

/-- The optimizer after one marking call. -/
def applyMark (o : Optimizer) : Mark → Optimizer
  | .markDirty x y width height => markDirty o x y width height
  | .markAllDirty => markAllDirty o

/-- The optimizer after a sequence of marking calls. -/
def runMarks (o : Optimizer) (marks : List Mark) : Optimizer :=
  marks.foldl applyMark o

/-- The call passes a non-negative width and height (`markAllDirty` passes none). -/
def Mark.NonnegSize : Mark → Prop
  | .markDirty _ _ width height => 0 ≤ width ∧ 0 ≤ height
  | .markAllDirty => True

/-- The rectangle `out` encloses the rectangle `r`: its left and top edges are not
beyond those of `r`, and neither are its right and bottom edges. -/
def Rect.Encloses (out r : Rect) : Prop :=
  out.x ≤ r.x ∧ r.x + r.width ≤ out.x + out.width ∧
    out.y ≤ r.y ∧ r.y + r.height ≤ out.y + out.height

/-- Method `mergeDirtyRects()` on the optimizer: the rectangles it returns and the
optimizer it leaves. The method assigns nothing: it sorts a copy of `this.dirtyRects`
and builds new rectangles. -/
def Optimizer.mergeDirtyRects (o : Optimizer) : List Rect × Optimizer :=
  (CanvasOptimizer.mergeDirtyRects o.dirtyRects, o)

/-- A draw callback that marks the 10×10 square at the origin in every frame. -/
def markingCallback : ℚ → Optimizer → DrawOutcome :=
  fun _ o => { optimizer := markDirty o 0 0 10 10, threw := false }

end CanvasOptimizer

/-! ## ParticleSystem (`src/js/particles.js`) -/

namespace ParticleSystem

/-- The particle record built by `ParticleSystem.createParticle`. -/
structure Particle where
  x : ℚ
  y : ℚ
  vx : ℚ
  vy : ℚ
  size : ℚ
  life : ℚ
  decay : ℚ
  color : String
  type : String
  deriving DecidableEq, Repr

/-- The numeric entries of `this.options`. -/
structure Options where
  particleCount : ℕ := 100
  gravity : ℚ := 1 / 10
  friction : ℚ := 98 / 100
  bounce : ℚ := 8 / 10
  particleSize : ℚ := 2
  deriving DecidableEq, Repr

/-- Method `updateParticle(particle)` on a canvas of the given `width` and `height`. -/
def updateParticle (options : Options) (width height : ℚ) (particle : Particle) : Particle :=
  -- Apply gravity
  let vy1 := particle.vy + options.gravity
  -- Apply friction
  let vx2 := particle.vx * options.friction
  let vy2 := vy1 * options.friction
  -- Update position
  let x1 := particle.x + vx2
  let y1 := particle.y + vy2
  -- Bounce off walls
  let hitX : Bool := decide (x1 < 0) || decide (x1 > width)
  let vx3 := if hitX then vx2 * -options.bounce else vx2
  let x2 := if hitX then max 0 (min width x1) else x1
  let hitY : Bool := decide (y1 < 0) || decide (y1 > height)
  let vy3 := if hitY then vy2 * -options.bounce else vy2
  let y2 := if hitY then max 0 (min height y1) else y1
  -- Update life
  { particle with x := x2, y := y2, vx := vx3, vy := vy3, life := particle.life - particle.decay }

/-- A force record built by `addForce(x, y, strength, radius, type)`. -/
structure Force where
  x : ℚ
  y : ℚ
  strength : ℚ
  radius : ℚ
  type : String
  active : Bool
  deriving DecidableEq, Repr

/-- The quotient `a / b`, checked: `none` records that the divisor is zero. -/
def checkedDiv (a b : ℚ) : Option ℚ :=
  if b = 0 then none else some (a / b)

/-- The body of the `forEach` in `applyForce(force)`, for one particle. The function
`sqrt` stands for `Math.sqrt` on the numbers of the model. The result is `none` when a
division by zero is attempted. -/
def applyForceTo (sqrt : ℚ → ℚ) (force : Force) (particle : Particle) : Option Particle :=
  let dx := force.x - particle.x
  let dy := force.y - particle.y
  let distance := sqrt (dx * dx + dy * dy)
  if distance < force.radius ∧ distance > 0 then do
    let intensity ← checkedDiv (force.radius - distance) force.radius
    let ux ← checkedDiv dx distance
    let uy ← checkedDiv dy distance
    let forceX := ux * force.strength * intensity
    let forceY := uy * force.strength * intensity
    if force.type = "attract" then
      pure { particle with vx := particle.vx + forceX * (1 / 10),
                           vy := particle.vy + forceY * (1 / 10) }
    else if force.type = "repel" then
      pure { particle with vx := particle.vx - forceX * (1 / 10),
                           vy := particle.vy - forceY * (1 / 10) }
    else pure particle
  else pure particle

/-- The loop `this.particles.forEach(...)` of `applyForce`, particle by particle. -/
def applyForceEach (sqrt : ℚ → ℚ) (force : Force) : List Particle → Option (List Particle)
  | [] => some []
  | particle :: rest => do
    let particle' ← applyForceTo sqrt force particle
    let rest' ← applyForceEach sqrt force rest
    pure (particle' :: rest')

/-- Method `applyForce(force)`, as a function of `this.particles`. -/
def applyForce (sqrt : ℚ → ℚ) (force : Force) (particles : List Particle) :
    Option (List Particle) :=
  if !force.active then some particles else applyForceEach sqrt force particles

/-- The loop `this.particles.forEach((particle, index) => ...)` of `animate`, from
`index` on, with `remaining` indices still to visit. `forEach` fixes the range of
indices when it starts and reads the element at an index when it gets there, so it
sees the `splice` and `push` made by earlier iterations. `createParticle k` is the
particle that the `k`-th call of `this.createParticle()` in this frame returns (the
source draws it at random); `created` counts the calls made so far. Drawing does not
touch the particles and is left out. -/
def updateFrom (options : Options) (width height : ℚ) (createParticle : ℕ → Particle) :
    ℕ → ℕ → List Particle → ℕ → List Particle × ℕ
  | _, 0, particles, created => (particles, created)
  | index, remaining + 1, particles, created =>
    match particles[index]? with
    | none => updateFrom options width height createParticle (index + 1) remaining
        particles created
    | some particle =>
      let updated := updateParticle options width height particle
      let particles1 := particles.set index updated
      -- Remove dead particles
      if updated.life ≤ 0 then
        updateFrom options width height createParticle (index + 1) remaining
          (particles1.eraseIdx index ++ [createParticle created]) (created + 1)
      else
        updateFrom options width height createParticle (index + 1) remaining
          particles1 created

/-- The particle-update pass of one `animate` frame: the particles it leaves in the
field and the number of fresh particles it created. -/
def updatePass (options : Options) (width height : ℚ) (createParticle : ℕ → Particle)
    (particles : List Particle) : List Particle × ℕ :=
  updateFrom options width height createParticle 0 particles.length particles 0

/-- The scheduling side of a `ParticleSystem`: the flag `isActive`, the number of
`() => this.animate()` callbacks queued with `requestAnimationFrame`, and the number of
frames drawn so far. -/
structure Scheduler where
  isActive : Bool
  pending : ℕ
  frames : ℕ
  deriving DecidableEq, Repr

/-- Method `animate()`, as far as scheduling goes: nothing when the system is paused,
otherwise one frame is drawn and the next one is requested. -/
def Scheduler.animate (s : Scheduler) : Scheduler :=
  if !s.isActive then s
  else { s with frames := s.frames + 1, pending := s.pending + 1 }

/-- The constructor: `isActive` is set and `init()` ends with `this.animate()`. -/
def Scheduler.construct : Scheduler :=
  Scheduler.animate { isActive := true, pending := 0, frames := 0 }

/-- Method `pause()`. -/
def Scheduler.pause (s : Scheduler) : Scheduler :=
  { s with isActive := false }

/-- Method `resume()`. -/
def Scheduler.resume (s : Scheduler) : Scheduler :=
  Scheduler.animate { s with isActive := true }

/-- The host runs one queued callback, if there is one. -/
def Scheduler.fire (s : Scheduler) : Scheduler :=
  if s.pending = 0 then s else Scheduler.animate { s with pending := s.pending - 1 }

/-- A fresh particle at (20, 20), the same at every call. -/
def sampleFresh : ℕ → Particle :=
  fun _ => ⟨20, 20, 0, 0, 2, 1, 1 / 1000, "", "cosmic"⟩

end ParticleSystem

/-! ## AdvancedAnimations (`src/js/advanced-animations.js`) -/

namespace AdvancedAnimations

/-- Method `getAdaptiveParticleCount(baseCount)`; `performanceMonitor` is `none` when
the constructor was given no monitor. -/
def getAdaptiveParticleCount (performanceMonitor : Option PerformanceMonitor.Monitor)
    (baseCount : ℚ) : ℚ :=
  match performanceMonitor with
  | none => baseCount
  | some monitor =>
    let multiplier := (PerformanceMonitor.getQualitySettings monitor).particleMultiplier
    ((⌊baseCount * multiplier⌋ : ℤ) : ℚ)

/-- A frame callback queued with `requestAnimationFrame`: the handle the host returned
and the container id of the effect whose `animate` closure it is. -/
structure Frame where
  handle : ℕ
  effect : String
  deriving DecidableEq, Repr

/-- The state of an `AdvancedAnimations` object and of the host's frame queue.
`pending` holds the callbacks queued with `requestAnimationFrame` that have neither run
nor been cancelled; `nextHandle` is the next handle the host hands out (handles are
positive); `animationFrames` is the map `this.animationFrames`; `animations` tells
which ids have an entry in `this.animations`; `drawLog` lists, per `draw` call, the
container id of the canvas it cleared and painted. -/
structure Stage where
  pending : List Frame
  nextHandle : ℕ
  animationFrames : String → Option ℕ
  animations : String → Bool
  drawLog : List String

/-- The state before any effect is started. -/
def Stage.init : Stage :=
  { pending := [], nextHandle := 1, animationFrames := fun _ => none,
    animations := fun _ => false, drawLog := [] }

/-- The closure `animate` of an effect started on `containerId` (the same in
`createSpiralGalaxy`, `createQuantumCloud` and `createAccretionDisk`): `draw` clears and
paints the canvas, then the next frame is requested and its handle is stored. -/
def animate (s : Stage) (containerId : String) : Stage :=
  { s with
    drawLog := s.drawLog ++ [containerId]
    pending := s.pending ++ [{ handle := s.nextHandle, effect := containerId }]
    nextHandle := s.nextHandle + 1
    animationFrames := fun k => if k = containerId then some s.nextHandle
      else s.animationFrames k }

/-- The methods `createSpiralGalaxy`, `createQuantumCloud` and `createAccretionDisk`, as
far as scheduling goes: nothing happens when the container is not found; otherwise
`animate()` runs once and the effect is entered in `this.animations`. -/
def create (s : Stage) (containerId : String) (containerFound : Bool) : Stage :=
  if !containerFound then s
  else
    { animate s containerId with
      animations := fun k => if k = containerId then true else s.animations k }

/-- Method `stop(id)`: a stored, non-zero frame handle is cancelled with
`cancelAnimationFrame` and forgotten, and the entry of `this.animations` is deleted. -/
def stop (s : Stage) (id : String) : Stage :=
  let s1 : Stage :=
    match s.animationFrames id with
    | some frameId =>
      if frameId ≠ 0 then
        { s with
          pending := s.pending.filter (fun fr => fr.handle != frameId)
          animationFrames := fun k => if k = id then none else s.animationFrames k }
      else s
    | none => s
  { s1 with animations := fun k => if k = id then false else s1.animations k }

/-- The host runs the queued callback with the given handle, if it is still queued. -/
def fire (s : Stage) (handle : ℕ) : Stage :=
  match s.pending.find? (fun fr => fr.handle == handle) with
  | some fr =>
    animate { s with pending := s.pending.filter (fun fr => fr.handle != handle) } fr.effect
  | none => s

/-- What can happen between frames: an effect is started, the host fires a queued
callback, or an effect is stopped. -/
inductive Event where
  | create (containerId : String) (containerFound : Bool)
  | fire (handle : ℕ)
  | stop (id : String)
  deriving DecidableEq, Repr

/-- The state after one event. -/
def stepEvent (s : Stage) : Event → Stage
  | .create containerId containerFound => create s containerId containerFound
  | .fire handle => fire s handle
  | .stop id => stop s id

/-- The state after a sequence of events. -/
def runEvents (s : Stage) (events : List Event) : Stage :=
  events.foldl stepEvent s

/-- Is every effect of the sequence started on a container id that has no running
effect at that moment? -/
def startsFresh (s : Stage) : List Event → Bool
  | [] => true
  | .create containerId containerFound :: rest =>
    !s.animations containerId && startsFresh (create s containerId containerFound) rest
  | e :: rest => startsFresh (stepEvent s e) rest

/-- The scheduling invariant: every queued callback has a positive handle, which is the
one stored for its effect in `animationFrames`, and its effect is entered in
`animations`. -/
structure Stage.Scheduled (s : Stage) : Prop where
  handlePos : 1 ≤ s.nextHandle ∧ ∀ fr ∈ s.pending, fr.handle ≠ 0
  stored : ∀ fr ∈ s.pending, s.animationFrames fr.effect = some fr.handle
  entered : ∀ fr ∈ s.pending, s.animations fr.effect = true

end AdvancedAnimations

/-! ## PhysicsEngine (`src/js/animations.js`) -/

namespace PhysicsEngine

/-- The fields of a particle that `PhysicsEngine` reads and writes. -/
structure Particle where
  x : ℚ
  y : ℚ
  vx : ℚ
  vy : ℚ
  radius : ℚ
  mass : ℚ
  deriving DecidableEq, Repr

/-- Method `resolveCollision(particle1, particle2)`: the two particles after the call.
The function `sqrt` stands for `Math.sqrt`; the result is `none` when a division by
zero is attempted. The constant `restitution` of the source is never read. -/
def resolveCollision (sqrt : ℚ → ℚ) (particle1 particle2 : Particle) :
    Option (Particle × Particle) :=
  let dx := particle2.x - particle1.x
  let dy := particle2.y - particle1.y
  let distance := sqrt (dx * dx + dy * dy)
  if distance = 0 then some (particle1, particle2)
  else do
    let nx ← ParticleSystem.checkedDiv dx distance
    let ny ← ParticleSystem.checkedDiv dy distance
    let relativeVelocityX := particle2.vx - particle1.vx
    let relativeVelocityY := particle2.vy - particle1.vy
    let speed := relativeVelocityX * nx + relativeVelocityY * ny
    if speed > 0 then pure (particle1, particle2)
    else do
      let impulse ← ParticleSystem.checkedDiv (2 * speed) (particle1.mass + particle2.mass)
      pure
        ({ particle1 with vx := particle1.vx + impulse * particle2.mass * nx,
                          vy := particle1.vy + impulse * particle2.mass * ny },
         { particle2 with vx := particle2.vx - impulse * particle1.mass * nx,
                          vy := particle2.vy - impulse * particle1.mass * ny })

end PhysicsEngine

/-! ## Theorems: ParticlePool -/

namespace ParticlePool

theorem mem_setAdd (s : List Nat) (id a : Nat) : a ∈ setAdd s id ↔ a ∈ s ∨ a = id := by
  unfold setAdd
  split
  · constructor
    · intro h; exact Or.inl h
    · rintro (h | rfl)
      · exact h
      · assumption
  · simp

theorem nodup_setAdd (s : List Nat) (id : Nat) (h : s.Nodup) : (setAdd s id).Nodup := by
  unfold setAdd
  split
  · exact h
  · rename_i hn
    rw [List.nodup_append]
    refine ⟨h, List.nodup_singleton _, ?_⟩
    intro a ha hb
    simp at hb
    subst hb
    exact hn ha

theorem mem_setDelete (s : List Nat) (id a : Nat) : a ∈ setDelete s id ↔ a ∈ s ∧ a ≠ id := by
  simp [setDelete]

theorem nodup_setDelete (s : List Nat) (id : Nat) (h : s.Nodup) : (setDelete s id).Nodup :=
  h.filter _

theorem length_setAdd_of_not_mem (s : List Nat) (id : Nat) (h : id ∉ s) :
    (setAdd s id).length = s.length + 1 := by
  simp [setAdd, h]

theorem length_setDelete_of_mem (s : List Nat) (id : Nat) (hn : s.Nodup) (h : id ∈ s) :
    (setDelete s id).length + 1 = s.length := by
  induction s with
  | nil => simp at h
  | cons a t ih =>
    rw [List.nodup_cons] at hn
    by_cases ha : a = id
    · subst ha
      have : setDelete (a :: t) a = t := by
        simp only [setDelete, List.filter_cons, bne_self_eq_false, Bool.false_eq_true, if_false]
        rw [List.filter_eq_self]
        intro b hb
        simp only [bne_iff_ne, ne_eq]
        rintro rfl
        exact hn.1 hb
      rw [this]; simp
    · have hmem : id ∈ t := by
        rcases List.mem_cons.1 h with h1 | h1
        · exact absurd h1.symm ha
        · exact h1
      have : setDelete (a :: t) id = a :: setDelete t id := by
        simp [setDelete, List.filter_cons, ha]
      rw [this]
      simp only [List.length_cons]
      have := ih hn.2 hmem
      omega

theorem lt_of_lookup {heap : List Particle} {id : Nat} {obj : Particle}
    (h : heap[id]? = some obj) : id < heap.length := by
  rcases List.getElem?_eq_some.1 h with ⟨hlt, _⟩
  exact hlt

theorem set_concat_length (heap : List Particle) (a b : Particle) :
    (heap ++ [a]).set heap.length b = heap ++ [b] := by
  induction heap with
  | nil => rfl
  | cons c t ih => simp [List.set, ih]

theorem acquire_of_nil (s : Pool) (props : Props) (h : s.pool = []) :
    acquire s props =
      ({ heap := s.heap ++ [configure props], pool := [],
         active := setAdd s.active s.heap.length }, s.heap.length) := by
  simp [acquire, h, set_concat_length]

theorem acquire_of_concat (s : Pool) (props : Props) (L : List Nat) (b : Nat)
    (h : s.pool = L ++ [b]) :
    acquire s props =
      ({ heap := s.heap.set b (configure props), pool := L,
         active := setAdd s.active b }, b) := by
  simp [acquire, h]

theorem inv_new (n : Nat) : Inv (new n) [] where
  poolNodup := List.nodup_range n
  activeNodup := List.nodup_nil
  disjoint := by intro id _ h; simp [new] at h
  poolFree := by
    intro id h
    simp only [new, List.mem_range] at h
    exact ⟨createParticle, by simp [new, h], rfl⟩
  activeUsed := by intro id h; simp [new] at h
  handedIn := by intro id h; simp at h

theorem inv_acquire (s : Pool) (handed : List Nat) (props : Props) (hI : Inv s handed) :
    Inv (acquire s props).1 ((acquire s props).2 :: handed) ∧
    (getStats (acquire s props).1).totalAllocated =
      (getStats s).totalAllocated + (if s.pool = [] then 1 else 0) := by
  rcases List.eq_nil_or_concat s.pool with hnil | ⟨L, b, hcat⟩
  · rw [acquire_of_nil s props hnil]
    have hfresh : s.heap.length ∉ s.active := by
      intro hm
      rcases hI.activeUsed _ hm with ⟨obj, ho, _⟩
      exact absurd (lt_of_lookup ho) (lt_irrefl _)
    refine ⟨⟨?_, ?_, ?_, ?_, ?_, ?_⟩, ?_⟩
    · exact List.nodup_nil
    · exact nodup_setAdd _ _ hI.activeNodup
    · intro id h; simp at h
    · intro id h; simp at h
    · intro id h
      rcases (mem_setAdd _ _ _).1 h with h1 | h1
      · rcases hI.activeUsed id h1 with ⟨obj, ho, hu⟩
        exact ⟨obj, by simp [List.getElem?_append_left (lt_of_lookup ho), ho], hu⟩
      · subst h1
        exact ⟨configure props, by simp, rfl⟩
    · intro id h
      rcases List.mem_cons.1 h with h1 | h1
      · right; exact (mem_setAdd _ _ _).2 (Or.inr h1)
      · rcases hI.handedIn id h1 with h2 | h2
        · rw [hnil] at h2; simp at h2
        · right; exact (mem_setAdd _ _ _).2 (Or.inl h2)
    · simp [getStats, hnil, length_setAdd_of_not_mem _ _ hfresh]
  · rw [List.concat_eq_append] at hcat
    rw [acquire_of_concat s props L b hcat]
    have hnd := hI.poolNodup
    rw [hcat, List.nodup_append] at hnd
    have hbL : b ∉ L := fun hm => hnd.2.2 hm (List.mem_singleton_self b)
    have hbp : b ∈ s.pool := by rw [hcat]; simp
    have hba : b ∉ s.active := hI.disjoint b hbp
    have hblt : b < s.heap.length := by
      rcases hI.poolFree b hbp with ⟨obj, ho, _⟩
      exact lt_of_lookup ho
    have hLp : ∀ id ∈ L, id ∈ s.pool := by
      intro id h; rw [hcat]; exact List.mem_append_left _ h
    refine ⟨⟨?_, ?_, ?_, ?_, ?_, ?_⟩, ?_⟩
    · exact hnd.1
    · exact nodup_setAdd _ _ hI.activeNodup
    · intro id h hm
      rcases (mem_setAdd _ _ _).1 hm with h1 | h1
      · exact hI.disjoint id (hLp id h) h1
      · subst h1; exact hbL h
    · intro id h
      rcases hI.poolFree id (hLp id h) with ⟨obj, ho, hu⟩
      have hne : b ≠ id := by rintro rfl; exact hbL h
      exact ⟨obj, by simp [List.getElem?_set_ne hne, ho], hu⟩
    · intro id h
      rcases (mem_setAdd _ _ _).1 h with h1 | h1
      · rcases hI.activeUsed id h1 with ⟨obj, ho, hu⟩
        have hne : b ≠ id := by rintro rfl; exact hba h1
        exact ⟨obj, by simp [List.getElem?_set_ne hne, ho], hu⟩
      · subst h1
        exact ⟨configure props, by simp [List.getElem?_set_self hblt], rfl⟩
    · intro id h
      rcases List.mem_cons.1 h with h1 | h1
      · right; exact (mem_setAdd _ _ _).2 (Or.inr h1)
      · rcases hI.handedIn id h1 with h2 | h2
        · rw [hcat] at h2
          rcases List.mem_append.1 h2 with h3 | h3
          · left; exact h3
          · right
            simp at h3
            exact (mem_setAdd _ _ _).2 (Or.inr h3)
        · right; exact (mem_setAdd _ _ _).2 (Or.inl h2)
    · have hne : s.pool ≠ [] := by rw [hcat]; simp
      simp [getStats, hne, length_setAdd_of_not_mem _ _ hba, hcat]
      omega

theorem inv_release (s : Pool) (handed : List Nat) (p : Option Nat) (hI : Inv s handed)
    (hp : handedOut handed p = true) :
    Inv (release s p) handed ∧
    (getStats (release s p)).totalAllocated = (getStats s).totalAllocated := by
  cases p with
  | none => exact ⟨hI, rfl⟩
  | some id =>
    simp only [handedOut, decide_eq_true_eq] at hp
    cases ho : s.heap[id]? with
    | none =>
      have hrel : release s (some id) = s := by simp [release, ho]
      rw [hrel]; exact ⟨hI, rfl⟩
    | some obj =>
      cases hu : obj.inUse with
      | false =>
        have hrel : release s (some id) = s := by simp [release, ho, hu]
        rw [hrel]; exact ⟨hI, rfl⟩
      | true =>
        have hnp : id ∉ s.pool := by
          intro hm
          rcases hI.poolFree id hm with ⟨obj2, ho2, hu2⟩
          rw [ho] at ho2
          cases ho2
          rw [hu] at hu2
          cases hu2
        have hact : id ∈ s.active := by
          rcases hI.handedIn id hp with h1 | h1
          · exact absurd h1 hnp
          · exact h1
        have hlt : id < s.heap.length := lt_of_lookup ho
        simp only [release, ho, hu, Bool.not_true, Bool.false_eq_true, if_false]
        refine ⟨⟨?_, ?_, ?_, ?_, ?_, ?_⟩, ?_⟩
        · rw [List.nodup_append]
          refine ⟨hI.poolNodup, List.nodup_singleton _, ?_⟩
          intro a ha hb
          simp at hb
          subst hb
          exact hnp ha
        · exact nodup_setDelete _ _ hI.activeNodup
        · intro x hx hm
          rcases (mem_setDelete _ _ _).1 hm with ⟨h1, h2⟩
          rcases List.mem_append.1 hx with h3 | h3
          · exact hI.disjoint x h3 h1
          · simp at h3; exact h2 h3
        · intro x hx
          rcases List.mem_append.1 hx with h3 | h3
          · rcases hI.poolFree x h3 with ⟨o, h4, h5⟩
            have hne : id ≠ x := by rintro rfl; exact hnp h3
            exact ⟨o, by simp [List.getElem?_set_ne hne, h4], h5⟩
          · simp at h3
            subst h3
            exact ⟨{ obj with inUse := false }, by simp [List.getElem?_set_self hlt], rfl⟩
        · intro x hx
          rcases (mem_setDelete _ _ _).1 hx with ⟨h1, h2⟩
          rcases hI.activeUsed x h1 with ⟨o, h4, h5⟩
          exact ⟨o, by simp [List.getElem?_set_ne (Ne.symm h2), h4], h5⟩
        · intro x hx
          by_cases hxi : x = id
          · left; subst hxi; simp
          · rcases hI.handedIn x hx with h1 | h1
            · left; exact List.mem_append_left _ h1
            · right; exact (mem_setDelete _ _ _).2 ⟨h1, hxi⟩
        · have := length_setDelete_of_mem s.active id hI.activeNodup hact
          simp only [getStats, List.length_append, List.length_singleton]
          omega

theorem inv_releaseMany (ps : List (Option Nat)) (s : Pool) (handed : List Nat)
    (hI : Inv s handed) (hp : ps.all (handedOut handed) = true) :
    Inv (releaseMany s ps) handed ∧
    (getStats (releaseMany s ps)).totalAllocated = (getStats s).totalAllocated := by
  induction ps generalizing s with
  | nil => exact ⟨hI, rfl⟩
  | cons p t ih =>
    simp only [List.all_cons, Bool.and_eq_true] at hp
    have h1 := inv_release s handed p hI hp.1
    have h2 := ih (release s p) h1.1 hp.2
    refine ⟨h2.1, ?_⟩
    have : releaseMany s (p :: t) = releaseMany (release s p) t := rfl
    rw [this, h2.2, h1.2]

theorem clearOne_lookup (s : Pool) (a id : Nat) :
    (clearOne s a).heap[id]? =
      (s.heap[id]?).map (fun o => if id = a then { o with inUse := false } else o) := by
  unfold clearOne
  cases ha : s.heap[a]? with
  | none =>
    by_cases h : id = a
    · subst h; simp [ha]
    · simp [h]
  | some obj =>
    by_cases h : id = a
    · subst h
      simp [List.getElem?_set_self (lt_of_lookup ha), ha]
    · simp [List.getElem?_set_ne (Ne.symm h), h]

theorem clearFold (l : List Nat) (s : Pool) :
    (l.foldl clearOne s).pool = s.pool ++ l ∧
    (l.foldl clearOne s).active = s.active ∧
    ∀ id, (l.foldl clearOne s).heap[id]? =
      (s.heap[id]?).map (fun o => if id ∈ l then { o with inUse := false } else o) := by
  induction l generalizing s with
  | nil => simp
  | cons a t ih =>
    rcases ih (clearOne s a) with ⟨h1, h2, h3⟩
    have hp : (clearOne s a).pool = s.pool ++ [a] := by
      unfold clearOne; split <;> rfl
    have hact : (clearOne s a).active = s.active := by
      unfold clearOne; split <;> rfl
    refine ⟨?_, ?_, ?_⟩
    · rw [List.foldl_cons, h1, hp]; simp
    · rw [List.foldl_cons, h2, hact]
    · intro id
      rw [List.foldl_cons, h3 id, clearOne_lookup]
      cases s.heap[id]? with
      | none => rfl
      | some o =>
        by_cases hia : id = a
        · subst hia; by_cases hit : id ∈ t <;> simp [hit]
        · by_cases hit : id ∈ t <;> simp [hit, hia]

theorem inv_clear (s : Pool) (handed : List Nat) (hI : Inv s handed) :
    Inv (clear s) handed ∧
    (getStats (clear s)).totalAllocated = (getStats s).totalAllocated := by
  rcases clearFold s.active s with ⟨h1, _, h3⟩
  refine ⟨⟨?_, ?_, ?_, ?_, ?_, ?_⟩, ?_⟩
  · show (s.active.foldl clearOne s).pool.Nodup
    rw [h1, List.nodup_append]
    exact ⟨hI.poolNodup, hI.activeNodup, fun a ha hb => hI.disjoint a ha hb⟩
  · exact List.nodup_nil
  · intro id _ h; simp [clear] at h
  · intro id h
    have h : id ∈ (s.active.foldl clearOne s).pool := h
    rw [h1] at h
    show ∃ obj, (s.active.foldl clearOne s).heap[id]? = some obj ∧ obj.inUse = false
    rw [h3 id]
    rcases List.mem_append.1 h with h4 | h4
    · rcases hI.poolFree id h4 with ⟨o, h5, h6⟩
      refine ⟨o, ?_, h6⟩
      simp [h5, hI.disjoint id h4]
    · rcases hI.activeUsed id h4 with ⟨o, h5, _⟩
      exact ⟨{ o with inUse := false }, by simp [h5, h4], rfl⟩
  · intro id h; simp [clear] at h
  · intro id h
    left
    show id ∈ (s.active.foldl clearOne s).pool
    rw [h1]
    rcases hI.handedIn id h with h4 | h4
    · exact List.mem_append_left _ h4
    · exact List.mem_append_right _ h4
  · show (s.active.foldl clearOne s).pool.length + 0 = s.pool.length + s.active.length
    rw [h1]; simp

theorem inv_step (s : Pool) (handed : List Nat) (op : Op) (hI : Inv s handed)
    (hown : ownArgs handed op = true) :
    Inv (step s op) (handedStep s handed op) ∧
    (getStats (step s op)).totalAllocated =
      (getStats s).totalAllocated + (if op.isAcquire = true ∧ s.pool = [] then 1 else 0) := by
  cases op with
  | acquire props =>
    have h := inv_acquire s handed props hI
    refine ⟨h.1, ?_⟩
    simp only [step, Op.isAcquire, true_and]
    exact h.2
  | release p =>
    have h := inv_release s handed p hI hown
    exact ⟨h.1, by simp only [step, Op.isAcquire]; simpa using h.2⟩
  | releaseMany ps =>
    have h := inv_releaseMany ps s handed hI hown
    exact ⟨h.1, by simp only [step, Op.isAcquire]; simpa using h.2⟩
  | clear =>
    have h := inv_clear s handed hI
    exact ⟨h.1, by simp only [step, Op.isAcquire]; simpa using h.2⟩

theorem inv_run (ops : List Op) (s : Pool) (handed : List Nat) (hI : Inv s handed)
    (hown : releasesOwn s handed ops = true) :
    Inv (run s ops) (handedAfter s handed ops) := by
  induction ops generalizing s handed with
  | nil => exact hI
  | cons op t ih =>
    simp only [releasesOwn, Bool.and_eq_true] at hown
    exact ih (step s op) (handedStep s handed op) (inv_step s handed op hI hown.1).1 hown.2

theorem releasesOwn_append (ops rest : List Op) (s : Pool) (handed : List Nat) :
    releasesOwn s handed (ops ++ rest) =
      (releasesOwn s handed ops &&
        releasesOwn (run s ops) (handedAfter s handed ops) rest) := by
  induction ops generalizing s handed with
  | nil => simp [releasesOwn, run, handedAfter]
  | cons op t ih =>
    have h1 : run s (op :: t) = run (step s op) t := rfl
    have h2 : handedAfter s handed (op :: t) =
        handedAfter (step s op) (handedStep s handed op) t := rfl
    have h3 : releasesOwn s handed (op :: (t ++ rest)) =
        (ownArgs handed op &&
          releasesOwn (step s op) (handedStep s handed op) (t ++ rest)) := rfl
    have h4 : releasesOwn s handed (op :: t) =
        (ownArgs handed op && releasesOwn (step s op) (handedStep s handed op) t) := rfl
    rw [h1, h2, h4, List.cons_append, h3, ih, Bool.and_assoc]

theorem run_append (ops rest : List Op) (s : Pool) :
    run s (ops ++ rest) = run (run s ops) rest := by
  simp [run, List.foldl_append]

theorem releasesOwn_take (ops : List Op) (k : Nat) (s : Pool) (handed : List Nat)
    (h : releasesOwn s handed ops = true) : releasesOwn s handed (ops.take k) = true := by
  have h2 := releasesOwn_append (ops.take k) (ops.drop k) s handed
  rw [List.take_append_drop, h] at h2
  have h3 := h2.symm
  simp only [Bool.and_eq_true] at h3
  exact h3.1

/-- C1 (pool exclusivity). For a pool built by the constructor with any initial size
and any sequence of `acquire`, `release`, `releaseMany` and `clear` calls whose released
particles were handed out by this pool, after each call (that is, after every prefix
of the sequence) no particle is both in the free list and in the active set. -/
theorem pool_exclusive (initialSize : Nat) (ops : List Op)
    (hown : releasesOwn (new initialSize) [] ops = true) (k id : Nat) :
    ¬ (id ∈ (run (new initialSize) (ops.take k)).pool ∧
       id ∈ (run (new initialSize) (ops.take k)).active) := by
  rintro ⟨h1, h2⟩
  have hI := inv_run (ops.take k) (new initialSize) [] (inv_new initialSize)
    (releasesOwn_take ops k _ _ hown)
  exact hI.disjoint id h1 h2

/-- C1, an instance: a one-particle pool that is exhausted, grown, partly released and
then cleared. -/
theorem pool_exclusive_witness :
    releasesOwn (new 1) []
        [.acquire {}, .acquire {}, .release (some 0), .acquire {}, .clear] = true ∧
    ¬ (1 ∈ (run (new 1)
          ([Op.acquire {}, .acquire {}, .release (some 0), .acquire {}, .clear].take 4)).pool ∧
       1 ∈ (run (new 1)
          ([Op.acquire {}, .acquire {}, .release (some 0), .acquire {}, .clear].take 4)).active) :=
  ⟨by decide, pool_exclusive 1 _ (by decide) 4 1⟩

/-- C5 (allocation total). For a pool built by the constructor and any sequence of
calls whose released particles were handed out by this pool, a further call leaves
`poolSize + activeCount` (which is `totalAllocated`) unchanged, except an `acquire`
made while the free list is empty, which raises it by exactly one; so the total never
decreases. -/
theorem totalAllocated_step (initialSize : Nat) (ops : List Op) (op : Op)
    (hown : releasesOwn (new initialSize) [] (ops ++ [op]) = true) :
    (getStats (run (new initialSize) (ops ++ [op]))).poolSize +
        (getStats (run (new initialSize) (ops ++ [op]))).activeCount =
      (getStats (run (new initialSize) ops)).poolSize +
        (getStats (run (new initialSize) ops)).activeCount +
        (if op.isAcquire = true ∧ (run (new initialSize) ops).pool = [] then 1 else 0) ∧
    (getStats (run (new initialSize) ops)).poolSize +
        (getStats (run (new initialSize) ops)).activeCount ≤
      (getStats (run (new initialSize) (ops ++ [op]))).poolSize +
        (getStats (run (new initialSize) (ops ++ [op]))).activeCount ∧
    (getStats (run (new initialSize) (ops ++ [op]))).totalAllocated =
      (getStats (run (new initialSize) (ops ++ [op]))).poolSize +
        (getStats (run (new initialSize) (ops ++ [op]))).activeCount := by
  rw [releasesOwn_append] at hown
  simp only [Bool.and_eq_true, releasesOwn, Bool.and_true] at hown
  have hI := inv_run ops (new initialSize) [] (inv_new initialSize) hown.1
  have hs := (inv_step _ _ op hI hown.2).2
  rw [run_append]
  have hrun : run (run (new initialSize) ops) [op] = step (run (new initialSize) ops) op := rfl
  rw [hrun]
  have hs2 : (getStats (step (run (new initialSize) ops) op)).poolSize +
      (getStats (step (run (new initialSize) ops) op)).activeCount =
      (getStats (run (new initialSize) ops)).poolSize +
        (getStats (run (new initialSize) ops)).activeCount +
        (if op.isAcquire = true ∧ (run (new initialSize) ops).pool = [] then 1 else 0) := hs
  refine ⟨hs2, ?_, rfl⟩
  rw [hs2]
  exact Nat.le_add_right _ _

/-- C5, an instance: the second `acquire` on a one-particle pool finds the free list
empty and raises the total from 1 to 2. -/
theorem totalAllocated_step_witness :
    releasesOwn (new 1) [] ([Op.acquire {}] ++ [Op.acquire {}]) = true ∧
    (getStats (run (new 1) ([Op.acquire {}] ++ [Op.acquire {}]))).poolSize +
        (getStats (run (new 1) ([Op.acquire {}] ++ [Op.acquire {}]))).activeCount = 1 + 1 :=
  ⟨by decide, (totalAllocated_step 1 [Op.acquire {}] (Op.acquire {}) (by decide)).1⟩

/-- C6 (idempotent release). For every pool state and every particle reference,
releasing it a second time changes nothing: the state after two releases is the state
after one, and the free list has gained the particle at most once. -/
theorem release_idempotent (s : Pool) (p : Option Nat) :
    release (release s p) p = release s p ∧
    ∀ id, (release (release s p) p).pool.count id ≤ s.pool.count id + 1 := by
  have key : release (release s p) p = release s p := by
    cases p with
    | none => rfl
    | some id =>
      cases ho : s.heap[id]? with
      | none =>
        have hrel : release s (some id) = s := by simp [release, ho]
        rw [hrel, hrel]
      | some obj =>
        cases hu : obj.inUse with
        | false =>
          have hrel : release s (some id) = s := by simp [release, ho, hu]
          rw [hrel, hrel]
        | true =>
          have hrel : release s (some id) =
              { heap := s.heap.set id { obj with inUse := false }
                pool := s.pool ++ [id]
                active := setDelete s.active id } := by
            simp [release, ho, hu]
          rw [hrel]
          simp [release, List.getElem?_set_self (lt_of_lookup ho)]
  refine ⟨key, ?_⟩
  intro id
  rw [key]
  cases p with
  | none => exact Nat.le_add_right _ _
  | some a =>
    simp only [release]
    split
    · exact Nat.le_add_right _ _
    · split
      · exact Nat.le_add_right _ _
      · simp only [List.count_append]
        have : List.count id [a] ≤ 1 := by
          rw [List.count_singleton]; split <;> simp
        omega

/-- The particle that `acquire` hands out is in the object store with the contents
`configure props`, for every pool whose free list refers to objects of the store. -/
theorem acquire_lookup (s : Pool) (props : Props)
    (hwf : ∀ id ∈ s.pool, id < s.heap.length) :
    (acquire s props).1.heap[(acquire s props).2]? = some (configure props) := by
  rcases List.eq_nil_or_concat s.pool with hnil | ⟨L, b, hcat⟩
  · rw [acquire_of_nil s props hnil]
    simp
  · rw [List.concat_eq_append] at hcat
    rw [acquire_of_concat s props L b hcat]
    have hb : b < s.heap.length := hwf b (by rw [hcat]; simp)
    simp [List.getElem?_set_self hb]

/-- C13, at the failing input `acquire({ radius: 0 })` on a fresh one-particle pool: the
particle handed out has radius 1 (the default), not the supplied 0, whereas a supplied
alpha of 0 is kept. -/
theorem acquire_zero_radius_defaulted :
    ((acquire (new 1) { radius := some 0, alpha := some 0 }).1.heap[
        (acquire (new 1) { radius := some 0, alpha := some 0 }).2]?).map (·.radius) = some 1 ∧
    ((acquire (new 1) { radius := some 0, alpha := some 0 }).1.heap[
        (acquire (new 1) { radius := some 0, alpha := some 0 }).2]?).map (·.alpha) = some 0 := by
  rw [acquire_lookup _ _ (by decide)]
  constructor <;> decide!

theorem inv_of_owned (s : Pool) (handed owned : List Nat) (hI : Inv s handed)
    (h : ∀ id ∈ owned, id ∈ s.pool ∨ id ∈ s.active) : Inv s owned :=
  ⟨hI.poolNodup, hI.activeNodup, hI.disjoint, hI.poolFree, hI.activeUsed, h⟩

/-- On a pool that satisfies the invariant, `acquire` hands out a particle that was not
active and appends it to the active set. -/
theorem acquire_active (s : Pool) (handed : List Nat) (props : Props) (hI : Inv s handed) :
    (acquire s props).2 ∉ s.active ∧
    (acquire s props).1.active = s.active ++ [(acquire s props).2] := by
  rcases List.eq_nil_or_concat s.pool with hnil | ⟨L, b, hcat⟩
  · rw [acquire_of_nil s props hnil]
    have hfresh : s.heap.length ∉ s.active := by
      intro hm
      rcases hI.activeUsed _ hm with ⟨obj, ho, _⟩
      exact absurd (lt_of_lookup ho) (lt_irrefl _)
    exact ⟨hfresh, by simp [setAdd, hfresh]⟩
  · rw [List.concat_eq_append] at hcat
    rw [acquire_of_concat s props L b hcat]
    have hba : b ∉ s.active := hI.disjoint b (by rw [hcat]; simp)
    exact ⟨hba, by simp [setAdd, hba]⟩

/-- The particles handed out by a burst of acquisitions are pairwise different, were
not active before the burst and are active after it; the active set grows by the size
of the burst. -/
theorem acquireMany_spec (propsList : List Props) (s : Pool) (handed : List Nat)
    (hI : Inv s handed) :
    (∃ handed', Inv (acquireMany s propsList).1 handed') ∧
    (acquireMany s propsList).2.Nodup ∧
    (∀ id ∈ (acquireMany s propsList).2,
      id ∈ (acquireMany s propsList).1.active ∧ id ∉ s.active) ∧
    (∀ id ∈ s.active, id ∈ (acquireMany s propsList).1.active) ∧
    (acquireMany s propsList).1.active.length = s.active.length + propsList.length ∧
    (acquireMany s propsList).2.length = propsList.length := by
  induction propsList generalizing s handed with
  | nil =>
    refine ⟨⟨handed, hI⟩, List.nodup_nil, ?_, fun id h => h, rfl, rfl⟩
    intro id h
    simp [acquireMany] at h
  | cons props rest ih =>
    have ha := acquire_active s handed props hI
    have hI1 := (inv_acquire s handed props hI).1
    obtain ⟨h1, h2, h3, h4, h5, h6⟩ := ih (acquire s props).1 _ hI1
    have hmem : (acquire s props).2 ∈ (acquire s props).1.active := by
      rw [ha.2]; simp
    have hsub : ∀ id ∈ s.active, id ∈ (acquire s props).1.active := by
      intro id h; rw [ha.2]; exact List.mem_append_left _ h
    refine ⟨h1, ?_, ?_, ?_, ?_, ?_⟩
    · show ((acquire s props).2 :: (acquireMany (acquire s props).1 rest).2).Nodup
      rw [List.nodup_cons]
      exact ⟨fun hin => (h3 _ hin).2 hmem, h2⟩
    · intro id hid
      have hid' : id ∈ (acquire s props).2 :: (acquireMany (acquire s props).1 rest).2 := hid
      rcases List.mem_cons.1 hid' with rfl | hid'
      · exact ⟨h4 _ hmem, ha.1⟩
      · exact ⟨(h3 id hid').1, fun hin => (h3 id hid').2 (hsub id hin)⟩
    · intro id hid
      exact h4 id (hsub id hid)
    · show (acquireMany (acquire s props).1 rest).1.active.length = _
      have e1 : (acquire s props).1.active.length = s.active.length + 1 := by
        rw [ha.2]; simp
      rw [h5, e1, List.length_cons]
      omega
    · show ((acquire s props).2 :: (acquireMany (acquire s props).1 rest).2).length = _
      simp only [List.length_cons, h6]

/-- Releasing an active particle of a pool that satisfies the invariant adds it to the
free list and removes it from the active set. -/
theorem release_active (s : Pool) (handed : List Nat) (id : Nat) (hI : Inv s handed)
    (hact : id ∈ s.active) :
    (release s (some id)).pool = s.pool ++ [id] ∧
    (release s (some id)).active = setDelete s.active id := by
  rcases hI.activeUsed id hact with ⟨obj, ho, hu⟩
  simp [release, ho, hu]

/-- Releasing pairwise different active particles moves each of them from the active
set to the free list. -/
theorem releaseMany_active (order : List Nat) (s : Pool) (handed : List Nat)
    (hI : Inv s handed) (hnd : order.Nodup) (hact : ∀ id ∈ order, id ∈ s.active) :
    (releaseMany s (order.map some)).pool.length = s.pool.length + order.length ∧
    (releaseMany s (order.map some)).active.length + order.length = s.active.length := by
  induction order generalizing s handed with
  | nil => exact ⟨rfl, rfl⟩
  | cons id t ih =>
    rw [List.nodup_cons] at hnd
    have hid : id ∈ s.active := hact id (List.mem_cons_self _ _)
    have hI0 : Inv s (id :: t) :=
      inv_of_owned s handed _ hI (fun x hx => Or.inr (hact x hx))
    have hI1 := (inv_release s (id :: t) (some id) hI0 (by simp [handedOut])).1
    have hr := release_active s handed id hI hid
    have hact1 : ∀ x ∈ t, x ∈ (release s (some id)).active := by
      intro x hx
      rw [hr.2]
      refine (mem_setDelete _ _ _).2 ⟨hact x (List.mem_cons_of_mem _ hx), ?_⟩
      rintro rfl
      exact hnd.1 hx
    have h := ih (release s (some id)) (id :: t) hI1 hnd.2 hact1
    have hstep : releaseMany s ((id :: t).map some) =
        releaseMany (release s (some id)) (t.map some) := rfl
    have hlen := length_setDelete_of_mem s.active id hI.activeNodup hid
    have e2 : (release s (some id)).pool.length = s.pool.length + 1 := by
      rw [hr.1]; simp
    have e3 : (release s (some id)).active.length + 1 = s.active.length := by
      rw [hr.2]; exact hlen
    have h2 := h.2
    rw [hstep, h.1, e2, List.length_cons]
    constructor <;> omega

/-- C14 (burst lifecycle). For every pool state reached from the constructor by calls
that release only particles the pool handed out, and every burst of `k` acquisitions
(`k` the length of `propsList`, any `k ≥ 0`): releasing each of the `k` particles
handed out, in any order, returns `activeCount` to its value before the burst and
leaves `poolSize` exactly `k` greater than it was right after the `k` acquisitions. -/
theorem burst_lifecycle (initialSize : Nat) (ops : List Op)
    (hown : releasesOwn (new initialSize) [] ops = true) (propsList : List Props)
    (order : List Nat)
    (hperm : order.Perm (acquireMany (run (new initialSize) ops) propsList).2) :
    (getStats (releaseMany (acquireMany (run (new initialSize) ops) propsList).1
        (order.map some))).activeCount =
      (getStats (run (new initialSize) ops)).activeCount ∧
    (getStats (releaseMany (acquireMany (run (new initialSize) ops) propsList).1
        (order.map some))).poolSize =
      (getStats (acquireMany (run (new initialSize) ops) propsList).1).poolSize +
        propsList.length := by
  have hI := inv_run ops (new initialSize) [] (inv_new initialSize) hown
  obtain ⟨⟨handed', hI'⟩, h2, h3, _, h5, h6⟩ :=
    acquireMany_spec propsList (run (new initialSize) ops) _ hI
  have hnd : order.Nodup := hperm.nodup_iff.2 h2
  have hact : ∀ id ∈ order,
      id ∈ (acquireMany (run (new initialSize) ops) propsList).1.active :=
    fun id h => (h3 id (hperm.mem_iff.1 h)).1
  have hlen : order.length = propsList.length := by rw [hperm.length_eq, h6]
  have h := releaseMany_active order _ handed' hI' hnd hact
  simp only [getStats]
  constructor
  · omega
  · rw [h.1, hlen]

/-- C14, an instance: on a fresh pool of two particles, a burst of three acquisitions
(one of them allocating) released in another order. -/
theorem burst_lifecycle_witness :
    (releasesOwn (new 2) [] [] = true ∧
      [2, 1, 0].Perm (acquireMany (run (new 2) []) [{}, {}, {}]).2) ∧
    (getStats (releaseMany (acquireMany (run (new 2) []) [{}, {}, {}]).1
        ([2, 1, 0].map some))).activeCount = 0 ∧
    (getStats (releaseMany (acquireMany (run (new 2) []) [{}, {}, {}]).1
        ([2, 1, 0].map some))).poolSize = 0 + 3 :=
  ⟨⟨rfl, by decide⟩, burst_lifecycle 2 [] rfl [{}, {}, {}] [2, 1, 0] (by decide)⟩

theorem same_refl (s : Pool) : s.Same s :=
  ⟨rfl, rfl, List.Perm.refl _⟩

theorem same_trans (s t u : Pool) (h1 : s.Same t) (h2 : t.Same u) : s.Same u :=
  ⟨h1.1.trans h2.1, h1.2.1.trans h2.2.1, h1.2.2.trans h2.2.2⟩

theorem same_symm (s t : Pool) (h : s.Same t) : t.Same s :=
  ⟨h.1.symm, h.2.1.symm, h.2.2.symm⟩

theorem release_of_free (s : Pool) (i : Nat)
    (h : ∀ obj, s.heap[i]? = some obj → obj.inUse = false) : release s (some i) = s := by
  cases ho : s.heap[i]? with
  | none => simp [release, ho]
  | some obj => simp [release, ho, h obj ho]

theorem release_of_inUse (s : Pool) (i : Nat) (obj : Particle) (ho : s.heap[i]? = some obj)
    (hu : obj.inUse = true) :
    release s (some i) =
      { heap := s.heap.set i { obj with inUse := false }
        pool := s.pool ++ [i]
        active := setDelete s.active i } := by
  simp [release, ho, hu]

theorem lookup_release_ne (s : Pool) (i j : Nat) (hij : i ≠ j) :
    (release s (some i)).heap[j]? = s.heap[j]? := by
  cases ho : s.heap[i]? with
  | none => rw [release_of_free s i (fun obj h => by rw [ho] at h; cases h)]
  | some obj =>
    cases hu : obj.inUse with
    | false =>
      rw [release_of_free s i (fun obj' h => by rw [ho] at h; cases h; exact hu)]
    | true =>
      rw [release_of_inUse s i obj ho hu]
      exact List.getElem?_set_ne hij

theorem release_congr (s t : Pool) (p : Option Nat) (h : s.Same t) :
    (release s p).Same (release t p) := by
  obtain ⟨sh, sp, sa⟩ := s
  obtain ⟨th, tp, ta⟩ := t
  obtain ⟨hh, ha, hp⟩ := h
  simp only at hh ha hp
  subst hh ha
  cases p with
  | none => exact ⟨rfl, rfl, hp⟩
  | some i =>
    cases ho : sh[i]? with
    | none =>
      simp only [release, ho]
      exact ⟨rfl, rfl, hp⟩
    | some obj =>
      cases hu : obj.inUse with
      | false =>
        simp only [release, ho, hu, Bool.not_false, if_true]
        exact ⟨rfl, rfl, hp⟩
      | true =>
        simp only [release, ho, hu, Bool.not_true, Bool.false_eq_true, if_false]
        exact ⟨rfl, rfl, hp.append_right _⟩

theorem release_swap (s : Pool) (p q : Option Nat) :
    (release (release s p) q).Same (release (release s q) p) := by
  cases p with
  | none => exact same_refl _
  | some i =>
    cases q with
    | none => exact same_refl _
    | some j =>
      by_cases hij : i = j
      · subst hij; exact same_refl _
      · have hji : j ≠ i := fun h => hij h.symm
        by_cases hi : ∀ obj, s.heap[i]? = some obj → obj.inUse = false
        · have h1 : release s (some i) = s := release_of_free s i hi
          have h2 : release (release s (some j)) (some i) = release s (some j) := by
            apply release_of_free
            intro obj ho
            rw [lookup_release_ne s j i hji] at ho
            exact hi obj ho
          rw [h1, h2]
          exact same_refl _
        · by_cases hj : ∀ obj, s.heap[j]? = some obj → obj.inUse = false
          · have h1 : release s (some j) = s := release_of_free s j hj
            have h2 : release (release s (some i)) (some j) = release s (some i) := by
              apply release_of_free
              intro obj ho
              rw [lookup_release_ne s i j hij] at ho
              exact hj obj ho
            rw [h1, h2]
            exact same_refl _
          · push_neg at hi hj
            obtain ⟨oi, hoi, hui⟩ := hi
            obtain ⟨oj, hoj, huj⟩ := hj
            have hui : oi.inUse = true := by simpa using hui
            have huj : oj.inUse = true := by simpa using huj
            have hoj' : (release s (some i)).heap[j]? = some oj := by
              rw [lookup_release_ne s i j hij]; exact hoj
            have hoi' : (release s (some j)).heap[i]? = some oi := by
              rw [lookup_release_ne s j i hji]; exact hoi
            rw [release_of_inUse _ j oj hoj' huj, release_of_inUse _ i oi hoi' hui,
              release_of_inUse s i oi hoi hui, release_of_inUse s j oj hoj huj]
            refine ⟨?_, ?_, ?_⟩
            · exact List.set_comm _ _ _ hij
            · simp only [setDelete, List.filter_filter]
              congr 1
              funext a
              exact Bool.and_comm _ _
            · simp only [List.append_assoc, List.singleton_append]
              exact List.Perm.append_left _ (List.Perm.swap _ _ _)

theorem releaseMany_congr (l : List (Option Nat)) (s t : Pool) (h : s.Same t) :
    (releaseMany s l).Same (releaseMany t l) := by
  induction l generalizing s t with
  | nil => exact h
  | cons p rest ih => exact ih (release s p) (release t p) (release_congr s t p h)

theorem releaseMany_perm (l l' : List (Option Nat)) (hperm : l.Perm l') (s t : Pool)
    (h : s.Same t) : (releaseMany s l).Same (releaseMany t l') := by
  induction hperm generalizing s t with
  | nil => exact h
  | cons p _ ih => exact ih (release s p) (release t p) (release_congr s t p h)
  | swap p q rest =>
    have h1 : (release (release s q) p).Same (release (release t p) q) :=
      same_trans _ _ _ (release_swap s q p)
        (release_congr _ _ q (release_congr s t p h))
    exact releaseMany_congr rest _ _ h1
  | trans _ _ ih1 ih2 => exact same_trans _ _ _ (ih1 s s (same_refl s)) (ih2 s t h)

/-- C21 (`releaseMany` is order-independent). For every pool state, every list of
particle references (`null` entries and repetitions included) and every permutation of
it, `releaseMany` on the list and on the permuted list give the same active set, free
lists that are permutations of each other, the same objects with the same `inUse`
flags, and the same `getStats` result. -/
theorem releaseMany_order_independent (s : Pool) (particles permuted : List (Option Nat))
    (hperm : particles.Perm permuted) :
    (releaseMany s particles).active = (releaseMany s permuted).active ∧
    (releaseMany s particles).pool.Perm (releaseMany s permuted).pool ∧
    (releaseMany s particles).heap = (releaseMany s permuted).heap ∧
    getStats (releaseMany s particles) = getStats (releaseMany s permuted) := by
  obtain ⟨hh, ha, hp⟩ := releaseMany_perm particles permuted hperm s s (same_refl s)
  refine ⟨ha, hp, hh, ?_⟩
  simp only [getStats, ha, hp.length_eq]

/-- C21, an instance: two active particles of a two-particle pool, released in either
order (with a repetition). -/
theorem releaseMany_order_independent_witness :
    [some 0, some 1, some 0].Perm [some 1, some 0, some 0] ∧
    (releaseMany (acquireMany (new 2) [{}, {}]).1 [some 0, some 1, some 0]).pool.Perm
      (releaseMany (acquireMany (new 2) [{}, {}]).1 [some 1, some 0, some 0]).pool :=
  ⟨by decide,
    (releaseMany_order_independent (acquireMany (new 2) [{}, {}]).1
      [some 0, some 1, some 0] [some 1, some 0, some 0] (by decide)).2.1⟩

end ParticlePool

/-! ## Theorems: PerformanceMonitor -/

namespace PerformanceMonitor

theorem adjustQuality_atTime (m : Monitor) (t : ℚ) :
    adjustQuality (atTime m t) = atTime (adjustQuality m) t := by
  unfold adjustQuality atTime
  split_ifs <;> rfl

theorem adjustQuality_isMonitoring (m : Monitor) :
    (adjustQuality m).isMonitoring = m.isMonitoring := by
  unfold adjustQuality
  split_ifs <;> rfl

theorem recordFrame_isMonitoring (m : Monitor) (now : ℚ) :
    (recordFrame m now).isMonitoring = m.isMonitoring := by
  unfold recordFrame
  cases hm : m.isMonitoring with
  | false => simp [hm]
  | true =>
    simp only [Bool.not_true, Bool.false_eq_true, if_false]
    split
    · rw [adjustQuality_isMonitoring]
    · rfl

theorem recordFrame_shift (m : Monitor) (t gap : ℚ) (hm : m.isMonitoring = true) :
    recordFrame (atTime m t) (t + gap) =
      atTime (recordFrame m (m.lastFrameTime + gap)) (t + gap) := by
  obtain ⟨o, fr, l, fps, q, fc, im⟩ := m
  simp only at hm
  subst hm
  simp only [recordFrame, atTime, Bool.not_true, Bool.false_eq_true, if_false,
    add_sub_cancel_left]
  split
  · exact adjustQuality_atTime ⟨o, _, l + gap, _, q, fc + 1, true⟩ (t + gap)
  · rfl

theorem recordSpaced_shift (gaps : List ℚ) (m : Monitor) (t : ℚ) (hm : m.isMonitoring = true) :
    recordSpaced (atTime m t) gaps = atTime (recordSpaced m gaps) (t + gaps.sum) := by
  induction gaps generalizing m t with
  | nil =>
    have h : recordSpaced m [] = m := rfl
    have h2 : recordSpaced (atTime m t) [] = atTime m t := rfl
    rw [h, h2]; simp
  | cons g gs ih =>
    have h1 : recordSpaced (atTime m t) (g :: gs) =
        recordSpaced (recordFrame (atTime m t) (t + g)) gs := rfl
    have h2 : recordSpaced m (g :: gs) =
        recordSpaced (recordFrame m (m.lastFrameTime + g)) gs := rfl
    rw [h1, h2, recordFrame_shift m t g hm,
      ih (recordFrame m (m.lastFrameTime + g)) (t + g) (by rw [recordFrame_isMonitoring]; exact hm)]
    simp [add_assoc]

theorem atTime_quality (m : Monitor) (t : ℚ) : (atTime m t).quality = m.quality := rfl


/-- C2 (hysteresis scenario). A monitor built with the default options at any time and
started at any time, fed 120 frames spaced 1000/70 ms apart, then 120 spaced 1000/40 ms,
120 spaced 1000/45 ms and 120 spaced 1000/70 ms, has tier high after frame 120, medium
after frame 240, medium after frame 360 and high after frame 480. -/
theorem hysteresis_scenario (constructedAt startedAt : ℚ) :
    (recordSpaced (start (new {} constructedAt) startedAt) (hysteresisGaps.take 120)).quality
      = .high ∧
    (recordSpaced (start (new {} constructedAt) startedAt) (hysteresisGaps.take 240)).quality
      = .medium ∧
    (recordSpaced (start (new {} constructedAt) startedAt) (hysteresisGaps.take 360)).quality
      = .medium ∧
    (recordSpaced (start (new {} constructedAt) startedAt) (hysteresisGaps.take 480)).quality
      = .high := by
  have h0 : start (new {} constructedAt) startedAt =
      atTime (start (new {} 0) 0) startedAt := rfl
  rw [h0]
  simp only [recordSpaced_shift _ (start (new {} 0) 0) startedAt rfl, atTime_quality]
  refine ⟨?_, ?_, ?_, ?_⟩ <;> decide!

/-- C4 (the tier decided by `adjustQuality`). For every fps value (finite, infinite or
NaN) and every current tier the new tier is: low if fps < 30; otherwise medium if the
tier was high and 30 ≤ fps < 50; otherwise medium if the tier was low and fps ≥ 55;
otherwise high if fps ≥ 58 and the tier was not high; otherwise the tier is unchanged.
No other field of the monitor changes. -/
theorem adjustQuality_tier (m : Monitor) :
    (adjustQuality m).quality =
      (if m.fps.lt 30 = true then Quality.low
       else if m.quality = .high ∧ m.fps.ge 30 = true ∧ m.fps.lt 50 = true then .medium
       else if m.quality = .low ∧ m.fps.ge 55 = true then .medium
       else if m.fps.ge 58 = true ∧ m.quality ≠ .high then .high
       else m.quality) ∧
    adjustQuality m = { m with quality := (adjustQuality m).quality } := by
  obtain ⟨o, fr, l, fps, q, fc, im⟩ := m
  constructor
  · cases fps with
    | num v =>
      simp only [adjustQuality, JsNum.lt, JsNum.ge]
      by_cases h30 : v < 30
      · have h55 : ¬ (55 : ℚ) ≤ v := by linarith
        have h58 : ¬ (58 : ℚ) ≤ v := by linarith
        have h30' : ¬ (30 : ℚ) ≤ v := by linarith
        cases q <;> simp [h30, h55, h58, h30']
      · by_cases h50 : v < 50
        · have h55 : ¬ (55 : ℚ) ≤ v := by linarith
          have h58 : ¬ (58 : ℚ) ≤ v := by linarith
          have h30' : (30 : ℚ) ≤ v := by linarith
          cases q <;> simp [h30, h50, h55, h58, h30']
        · by_cases h55 : (55 : ℚ) ≤ v
          · by_cases h58 : (58 : ℚ) ≤ v
            · cases q <;> simp [h30, h50, h55, h58]
            · cases q <;> simp [h30, h50, h55, h58]
          · have h58 : ¬ (58 : ℚ) ≤ v := by linarith
            cases q <;> simp [h30, h50, h55, h58]
    | posInf => cases q <;> simp [adjustQuality, JsNum.lt, JsNum.ge]
    | negInf => cases q <;> simp [adjustQuality, JsNum.lt, JsNum.ge]
    | nan => cases q <;> simp [adjustQuality, JsNum.lt, JsNum.ge]
  · unfold adjustQuality
    split_ifs <;> rfl

/-- C3, as stated, fails: at fps 60 a monitor on tier low is moved to medium, not to
high, by one call of `adjustQuality`. -/
theorem adjustQuality_low_not_high :
    ¬ ∀ m : Monitor, m.fps.ge 58 = true → m.quality ≠ .high →
        (adjustQuality m).quality = .high := by
  intro h
  have h1 := h { new {} 0 with fps := .num 60, quality := .low } (by decide!) (by decide)
  revert h1
  decide!

/-- C3, amended. For every fps value with fps ≥ 58 and every current tier other than
high, one call of `adjustQuality` sets the tier to high when it was medium and to medium
when it was low; after a second call at the same fps the tier is high in both cases. -/
theorem adjustQuality_upgrade (m : Monitor) (hfps : m.fps.ge 58 = true)
    (hq : m.quality ≠ .high) :
    (adjustQuality m).quality = (if m.quality = .low then Quality.medium else .high) ∧
    (adjustQuality (adjustQuality m)).quality = .high := by
  obtain ⟨o, fr, l, fps, q, fc, im⟩ := m
  have h30 : fps.lt 30 = false := by
    cases fps with
    | num v =>
      simp only [JsNum.ge, decide_eq_true_eq] at hfps
      simp only [JsNum.lt, decide_eq_false_iff_not]
      linarith
    | posInf => rfl
    | negInf => simp [JsNum.ge] at hfps
    | nan => simp [JsNum.ge] at hfps
  have h50 : fps.lt 50 = false := by
    cases fps with
    | num v =>
      simp only [JsNum.ge, decide_eq_true_eq] at hfps
      simp only [JsNum.lt, decide_eq_false_iff_not]
      linarith
    | posInf => rfl
    | negInf => simp [JsNum.ge] at hfps
    | nan => simp [JsNum.ge] at hfps
  have h55 : fps.ge 55 = true := by
    cases fps with
    | num v =>
      simp only [JsNum.ge, decide_eq_true_eq] at hfps ⊢
      linarith
    | posInf => rfl
    | negInf => simp [JsNum.ge] at hfps
    | nan => simp [JsNum.ge] at hfps
  simp only at hfps hq
  cases q with
  | low => simp [adjustQuality, h30, h50, h55, hfps]
  | medium => simp [adjustQuality, h30, h50, h55, hfps]
  | high => exact absurd rfl hq

/-- C3 amended, an instance: at fps 60 a monitor on tier low reaches medium after one
call and high after two. -/
theorem adjustQuality_upgrade_witness :
    (({ new {} 0 with fps := .num 60, quality := .low } : Monitor).fps.ge 58 = true ∧
      ({ new {} 0 with fps := .num 60, quality := .low } : Monitor).quality ≠ .high) ∧
    (adjustQuality { new {} 0 with fps := .num 60, quality := .low }).quality = .medium ∧
    (adjustQuality (adjustQuality
      { new {} 0 with fps := .num 60, quality := .low })).quality = .high :=
  ⟨⟨by decide!, by decide⟩,
    adjustQuality_upgrade { new {} 0 with fps := .num 60, quality := .low }
      (by decide!) (by decide)⟩

/-- C19 (quality tier monotonicity). In `qualityLevels` both `particleMultiplier` and
`canvasScale` are non-decreasing from low to medium to high; consequently, for every
base count `b ≥ 0` (a natural number) and a monitor on each tier, the adaptive particle
count `floor(b * particleMultiplier)` is non-decreasing from low to medium to high and
equals `b` at high. -/
theorem qualityLevels_monotone (b : ℕ) (m : Monitor) :
    ((qualityLevels .low).particleMultiplier ≤ (qualityLevels .medium).particleMultiplier ∧
      (qualityLevels .medium).particleMultiplier ≤ (qualityLevels .high).particleMultiplier) ∧
    ((qualityLevels .low).canvasScale ≤ (qualityLevels .medium).canvasScale ∧
      (qualityLevels .medium).canvasScale ≤ (qualityLevels .high).canvasScale) ∧
    AdvancedAnimations.getAdaptiveParticleCount (some { m with quality := .low }) b ≤
      AdvancedAnimations.getAdaptiveParticleCount (some { m with quality := .medium }) b ∧
    AdvancedAnimations.getAdaptiveParticleCount (some { m with quality := .medium }) b ≤
      AdvancedAnimations.getAdaptiveParticleCount (some { m with quality := .high }) b ∧
    AdvancedAnimations.getAdaptiveParticleCount (some { m with quality := .high }) b = b := by
  have hb : (0 : ℚ) ≤ b := Nat.cast_nonneg b
  refine ⟨⟨by norm_num [qualityLevels], by norm_num [qualityLevels]⟩,
    ⟨by norm_num [qualityLevels], by norm_num [qualityLevels]⟩, ?_, ?_, ?_⟩
  · have h : (b : ℚ) * (3 / 10) ≤ (b : ℚ) * (6 / 10) := by nlinarith
    exact Int.cast_le.2 (Int.floor_mono h)
  · have h : (b : ℚ) * (6 / 10) ≤ (b : ℚ) * 1 := by nlinarith
    exact Int.cast_le.2 (Int.floor_mono h)
  · simp [AdvancedAnimations.getAdaptiveParticleCount, getQualitySettings, qualityLevels]

/-- C20, as stated, fails: with 8 cores and a device memory of 0 reported,
`getDeviceTier` returns medium, not low. -/
theorem getDeviceTier_zero_memory_medium :
    ¬ ∀ cores memory : Option ℚ, cores = some 0 ∨ memory = some 0 →
        getDeviceTier cores memory = .low := by
  intro h
  have h1 := h (some 8) (some 0) (Or.inr rfl)
  revert h1
  decide!

/-- C20, amended. For every pair of reported values in which the core count is zero or
the device memory is zero, `getDeviceTier` returns a tier (it raises no exception) and
never high: a zero is replaced by the default (2 cores, 4 units of memory), so the
result is low, except that it is medium when only the memory is zero and at least 4
cores are reported. -/
theorem getDeviceTier_degenerate (cores memory : Option ℚ)
    (hzero : cores = some 0 ∨ memory = some 0) :
    getDeviceTier cores memory = (if 4 ≤ hintOr cores 2 then Quality.medium else .low) := by
  rcases hzero with h | h
  · subst h
    have h4 : ¬ (4 : ℚ) ≤ 2 := by norm_num
    have h8 : ¬ (8 : ℚ) ≤ 2 := by norm_num
    simp [getDeviceTier, hintOr, h4, h8]
  · subst h
    have h8 : ¬ (8 : ℚ) ≤ 4 := by norm_num
    simp [getDeviceTier, hintOr, h8]

/-- C20 amended, an instance: zero cores with 16 units of memory give low. -/
theorem getDeviceTier_degenerate_witness :
    ((some 0 : Option ℚ) = some 0 ∨ (some 16 : Option ℚ) = some 0) ∧
    getDeviceTier (some 0) (some 16) = .low :=
  ⟨Or.inl rfl,
    (getDeviceTier_degenerate (some 0) (some 16) (Or.inl rfl)).trans (by decide!)⟩

theorem adjustQuality_frames (m : Monitor) : (adjustQuality m).frames = m.frames := by
  unfold adjustQuality
  split_ifs <;> rfl

theorem adjustQuality_frameCount (m : Monitor) :
    (adjustQuality m).frameCount = m.frameCount := by
  unfold adjustQuality
  split_ifs <;> rfl

theorem adjustQuality_options (m : Monitor) : (adjustQuality m).options = m.options := by
  unfold adjustQuality
  split_ifs <;> rfl

theorem adjustQuality_fps (m : Monitor) : (adjustQuality m).fps = m.fps := by
  unfold adjustQuality
  split_ifs <;> rfl

/-- What `recordFrame()` does to the buffer, the counter, the options and `fps` of a
monitoring monitor. -/
theorem recordFrame_monitoring (m : Monitor) (now : ℚ) (hm : m.isMonitoring = true) :
    (recordFrame m now).frames =
      (if (m.frames ++ [now - m.lastFrameTime]).length > m.options.sampleSize then
        (m.frames ++ [now - m.lastFrameTime]).tail
       else m.frames ++ [now - m.lastFrameTime]) ∧
    (recordFrame m now).frameCount = m.frameCount + 1 ∧
    (recordFrame m now).options = m.options ∧
    (recordFrame m now).fps =
      (if (recordFrame m now).frames.length > 0 then
        roundedRate ((recordFrame m now).frames.foldl (fun a b => a + b) 0 /
          (recordFrame m now).frames.length)
       else m.fps) := by
  have key : ∃ m1 : Monitor,
      m1.frames =
        (if (m.frames ++ [now - m.lastFrameTime]).length > m.options.sampleSize then
          (m.frames ++ [now - m.lastFrameTime]).tail
         else m.frames ++ [now - m.lastFrameTime]) ∧
      m1.frameCount = m.frameCount + 1 ∧ m1.options = m.options ∧
      m1.fps =
        (if m1.frames.length > 0 then
          roundedRate (m1.frames.foldl (fun a b => a + b) 0 / m1.frames.length)
         else m.fps) ∧
      (recordFrame m now = m1 ∨ recordFrame m now = adjustQuality m1) := by
    refine ⟨{ m with
        frames :=
          if (m.frames ++ [now - m.lastFrameTime]).length > m.options.sampleSize then
            (m.frames ++ [now - m.lastFrameTime]).tail
          else m.frames ++ [now - m.lastFrameTime]
        lastFrameTime := now
        frameCount := m.frameCount + 1
        fps :=
          if (if (m.frames ++ [now - m.lastFrameTime]).length > m.options.sampleSize then
              (m.frames ++ [now - m.lastFrameTime]).tail
            else m.frames ++ [now - m.lastFrameTime]).length > 0 then
            roundedRate
              ((if (m.frames ++ [now - m.lastFrameTime]).length > m.options.sampleSize then
                  (m.frames ++ [now - m.lastFrameTime]).tail
                else m.frames ++ [now - m.lastFrameTime]).foldl (fun a b => a + b) 0 /
                (if (m.frames ++ [now - m.lastFrameTime]).length > m.options.sampleSize then
                  (m.frames ++ [now - m.lastFrameTime]).tail
                else m.frames ++ [now - m.lastFrameTime]).length)
          else m.fps }, rfl, rfl, rfl, rfl, ?_⟩
    unfold recordFrame
    simp only [hm, Bool.not_true, Bool.false_eq_true, if_false]
    by_cases hq : (m.options.adaptiveQuality && (m.frameCount + 1) % 120 == 0) = true
    · rw [if_pos hq]; exact Or.inr rfl
    · rw [if_neg hq]; exact Or.inl rfl
  obtain ⟨m1, h1, h2, h3, h4, h5 | h5⟩ := key
  · rw [h5]; exact ⟨h1, h2, h3, h4⟩
  · rw [h5, adjustQuality_frames, adjustQuality_frameCount, adjustQuality_options,
      adjustQuality_fps]
    exact ⟨h1, h2, h3, h4⟩

theorem recordFrame_not_monitoring (m : Monitor) (now : ℚ) (hm : m.isMonitoring = false) :
    recordFrame m now = m := by
  simp [recordFrame, hm]

/-- Pushing a delta onto the last `n` entries of a log and shifting once when the
buffer overflows gives the last `n` entries of the extended log. -/
theorem push_lastN (n : ℕ) (log : List ℚ) (d : ℚ) :
    (if (log.drop (log.length - n) ++ [d]).length > n then
        (log.drop (log.length - n) ++ [d]).tail
      else log.drop (log.length - n) ++ [d]) =
      (log ++ [d]).drop ((log ++ [d]).length - n) := by
  by_cases h : log.length < n
  · have h0 : log.length - n = 0 := by omega
    have h1 : (log ++ [d]).length - n = 0 := by simp; omega
    rw [h0, h1]
    simp only [List.drop_zero, List.length_append, List.length_singleton]
    rw [if_neg (by omega)]
  · have hl : (log.drop (log.length - n) ++ [d]).length = n + 1 := by
      simp only [List.length_append, List.length_drop, List.length_singleton]
      omega
    rw [if_pos (by omega)]
    have h1 : (log ++ [d]).length - n = (log.length - n) + 1 := by
      simp only [List.length_append, List.length_singleton]
      omega
    rw [h1, ← List.tail_drop, List.drop_append_of_le_length (by omega)]

theorem runCalls_options (calls : List Call) (m : Monitor) :
    (runCalls m calls).options = m.options := by
  induction calls generalizing m with
  | nil => rfl
  | cons c cs ih =>
    have h : runCalls m (c :: cs) = runCalls (call m c) cs := rfl
    rw [h, ih]
    cases c with
    | start now => rfl
    | stop => rfl
    | reset now => rfl
    | recordFrame now =>
      cases hm : m.isMonitoring with
      | true => exact (recordFrame_monitoring m now hm).2.2.1
      | false =>
        show (recordFrame m now).options = m.options
        rw [recordFrame_not_monitoring m now hm]

/-- The buffer invariant carried along a sequence of calls: the buffer is the tail of
the log of recorded deltas that fits the capacity, and `frameCount` is the length of
the log. -/
theorem runCalls_buffer (calls : List Call) (m : Monitor) (log : List ℚ)
    (hf : m.frames = log.drop (log.length - m.options.sampleSize))
    (hc : m.frameCount = log.length) :
    (runCalls m calls).frames =
      (recorded m log calls).drop ((recorded m log calls).length - m.options.sampleSize) ∧
    (runCalls m calls).frameCount = (recorded m log calls).length := by
  induction calls generalizing m log with
  | nil => exact ⟨hf, hc⟩
  | cons c cs ih =>
    have h : runCalls m (c :: cs) = runCalls (call m c) cs := rfl
    have h2 : recorded m log (c :: cs) = recorded (call m c) (recordedStep m log c) cs := rfl
    rw [h, h2]
    have hopt : (call m c).options = m.options := runCalls_options [c] m
    rw [← hopt]
    apply ih
    · rw [hopt]
      cases c with
      | start now => exact hf
      | stop => exact hf
      | reset now => simp [call, reset, recordedStep]
      | recordFrame now =>
        cases hm : m.isMonitoring with
        | true =>
          show (recordFrame m now).frames = _
          rw [(recordFrame_monitoring m now hm).1, hf]
          simp only [recordedStep, hm, if_true]
          exact push_lastN _ _ _
        | false =>
          show (recordFrame m now).frames = _
          rw [recordFrame_not_monitoring m now hm]
          simp only [recordedStep, hm, Bool.false_eq_true, if_false]
          exact hf
    · cases c with
      | start now => exact hc
      | stop => exact hc
      | reset now => rfl
      | recordFrame now =>
        cases hm : m.isMonitoring with
        | true =>
          show (recordFrame m now).frameCount = _
          rw [(recordFrame_monitoring m now hm).2.1, hc]
          simp [recordedStep, hm]
        | false =>
          show (recordFrame m now).frameCount = _
          rw [recordFrame_not_monitoring m now hm]
          simp only [recordedStep, hm, Bool.false_eq_true, if_false]
          exact hc

/-- C17 (bounded sample buffer). For a monitor built with any options (any sample
capacity `N`, so in particular every `N ≥ 1`) and any sequence of `start`, `stop`,
`reset` and `recordFrame` calls: the buffer never holds more than `N` deltas; the
frame counter `k` is the number of deltas recorded since the last `reset()` (or since
construction); and the buffer is exactly the last `min(k, N)` of those deltas, in
arrival order. -/
theorem sample_buffer_bounded (options : Options) (constructedAt : ℚ) (calls : List Call) :
    (runCalls (new options constructedAt) calls).frames.length ≤ options.sampleSize ∧
    (runCalls (new options constructedAt) calls).frameCount =
      (recorded (new options constructedAt) [] calls).length ∧
    (runCalls (new options constructedAt) calls).frames =
      (recorded (new options constructedAt) [] calls).drop
        ((recorded (new options constructedAt) [] calls).length -
          min (recorded (new options constructedAt) [] calls).length options.sampleSize) := by
  have h := runCalls_buffer calls (new options constructedAt) [] (by simp [new]) rfl
  have hopt : (new options constructedAt).options = options := rfl
  rw [hopt] at h
  have hmin : (recorded (new options constructedAt) [] calls).length -
      min (recorded (new options constructedAt) [] calls).length options.sampleSize =
      (recorded (new options constructedAt) [] calls).length - options.sampleSize := by
    omega
  refine ⟨?_, h.2, ?_⟩
  · rw [h.1, List.length_drop]
    omega
  · rw [hmin]; exact h.1

theorem adjustQuality_lastFrameTime (m : Monitor) :
    (adjustQuality m).lastFrameTime = m.lastFrameTime := by
  unfold adjustQuality
  split_ifs <;> rfl

/-- What `recordFrame()` in double precision does to a monitoring monitor. -/
theorem recordFrameDouble_monitoring (m : Monitor) (now : ℚ) (hm : m.isMonitoring = true) :
    (recordFrameDouble m now).frames =
      (if (m.frames ++ [toDouble (now - m.lastFrameTime)]).length > m.options.sampleSize then
        (m.frames ++ [toDouble (now - m.lastFrameTime)]).tail
       else m.frames ++ [toDouble (now - m.lastFrameTime)]) ∧
    (recordFrameDouble m now).options = m.options ∧
    (recordFrameDouble m now).isMonitoring = true ∧
    (recordFrameDouble m now).lastFrameTime = now ∧
    (recordFrameDouble m now).fps =
      (if (recordFrameDouble m now).frames.length > 0 then
        fpsDouble (recordFrameDouble m now).frames
       else m.fps) := by
  have key : ∃ m1 : Monitor,
      m1.frames =
        (if (m.frames ++ [toDouble (now - m.lastFrameTime)]).length > m.options.sampleSize
          then (m.frames ++ [toDouble (now - m.lastFrameTime)]).tail
         else m.frames ++ [toDouble (now - m.lastFrameTime)]) ∧
      m1.options = m.options ∧ m1.isMonitoring = true ∧ m1.lastFrameTime = now ∧
      m1.fps = (if m1.frames.length > 0 then fpsDouble m1.frames else m.fps) ∧
      (recordFrameDouble m now = m1 ∨ recordFrameDouble m now = adjustQuality m1) := by
    refine ⟨{ m with
        frames :=
          if (m.frames ++ [toDouble (now - m.lastFrameTime)]).length > m.options.sampleSize
            then (m.frames ++ [toDouble (now - m.lastFrameTime)]).tail
          else m.frames ++ [toDouble (now - m.lastFrameTime)]
        lastFrameTime := now
        frameCount := m.frameCount + 1
        fps :=
          if (if (m.frames ++ [toDouble (now - m.lastFrameTime)]).length >
                m.options.sampleSize
              then (m.frames ++ [toDouble (now - m.lastFrameTime)]).tail
            else m.frames ++ [toDouble (now - m.lastFrameTime)]).length > 0 then
            fpsDouble
              (if (m.frames ++ [toDouble (now - m.lastFrameTime)]).length >
                  m.options.sampleSize
                then (m.frames ++ [toDouble (now - m.lastFrameTime)]).tail
              else m.frames ++ [toDouble (now - m.lastFrameTime)])
          else m.fps }, rfl, rfl, hm, rfl, rfl, ?_⟩
    unfold recordFrameDouble
    simp only [hm, Bool.not_true, Bool.false_eq_true, if_false]
    by_cases hq : (m.options.adaptiveQuality && (m.frameCount + 1) % 120 == 0) = true
    · rw [if_pos hq]; exact Or.inr rfl
    · rw [if_neg hq]; exact Or.inl rfl
  obtain ⟨m1, h1, h2, h3, h4, h5, h6 | h6⟩ := key
  · rw [h6]; exact ⟨h1, h2, h3, h4, h5⟩
  · rw [h6, adjustQuality_frames, adjustQuality_options, adjustQuality_fps,
      adjustQuality_isMonitoring, adjustQuality_lastFrameTime]
    exact ⟨h1, h2, h3, h4, h5⟩

/-- A run of frames on a monitoring monitor keeps it monitoring, keeps its options, and
leaves in the buffer the tail of the extended log of deltas that fits the capacity. -/
theorem recordFramesDouble_buffer (nows : List ℚ) (m : Monitor) (log : List ℚ)
    (hm : m.isMonitoring = true)
    (hf : m.frames = log.drop (log.length - m.options.sampleSize)) :
    (recordFramesDouble m nows).frames =
      (log ++ recordedDeltas m.lastFrameTime nows).drop
        ((log ++ recordedDeltas m.lastFrameTime nows).length - m.options.sampleSize) ∧
    (recordFramesDouble m nows).options = m.options ∧
    (recordFramesDouble m nows).isMonitoring = true := by
  induction nows generalizing m log with
  | nil => simpa [recordFramesDouble, recordedDeltas] using ⟨hf, hm⟩
  | cons now rest ih =>
    have h1 : recordFramesDouble m (now :: rest) =
        recordFramesDouble (recordFrameDouble m now) rest := rfl
    have h2 : recordedDeltas m.lastFrameTime (now :: rest) =
        toDouble (now - m.lastFrameTime) :: recordedDeltas now rest := rfl
    have hr := recordFrameDouble_monitoring m now hm
    have hfr : (recordFrameDouble m now).frames =
        (log ++ [toDouble (now - m.lastFrameTime)]).drop
          ((log ++ [toDouble (now - m.lastFrameTime)]).length -
            (recordFrameDouble m now).options.sampleSize) := by
      rw [hr.1, hr.2.1, hf]
      exact push_lastN _ _ _
    have h := ih (recordFrameDouble m now) (log ++ [toDouble (now - m.lastFrameTime)])
      hr.2.2.1 hfr
    rw [hr.2.2.2.1, hr.2.1] at h
    rw [h1, h2, h.1, h.2.1]
    simp only [List.append_assoc, List.singleton_append]
    exact ⟨trivial, trivial, h.2.2⟩

/-- A call of `recordFrame()` in double precision keeps the buffer within its capacity. -/
theorem recordFrameDouble_capacity (m : Monitor) (now : ℚ)
    (h : m.frames.length ≤ m.options.sampleSize) :
    (recordFrameDouble m now).frames.length ≤ (recordFrameDouble m now).options.sampleSize := by
  cases hm : m.isMonitoring with
  | false =>
    have hr : recordFrameDouble m now = m := by simp [recordFrameDouble, hm]
    rw [hr]
    exact h
  | true =>
    have hr := recordFrameDouble_monitoring m now hm
    rw [hr.1, hr.2.1]
    split_ifs with hlen
    · simp only [List.length_tail, List.length_append, List.length_singleton]
      omega
    · omega

theorem recordFramesDouble_concat (m : Monitor) (nows : List ℚ) (now : ℚ) :
    recordFramesDouble m (nows ++ [now]) =
      recordFrameDouble (recordFramesDouble m nows) now := by
  simp [recordFramesDouble, List.foldl_append]

theorem recordedDeltas_length (nows : List ℚ) (last : ℚ) :
    (recordedDeltas last nows).length = nows.length := by
  induction nows generalizing last with
  | nil => rfl
  | cons now rest ih => simp [recordedDeltas, ih]

theorem sumDouble_concat (frames : List ℚ) (d : ℚ) :
    sumDouble (frames ++ [d]) = toDouble (sumDouble frames + d) := by
  simp only [sumDouble, List.foldl_append, List.foldl_cons, List.foldl_nil]

/-- A sum in which no addition rounds is the exact sum. -/
theorem sumDouble_exact (frames : List ℚ)
    (h : ∀ k, k ≤ frames.length → toDouble (frames.take k).sum = (frames.take k).sum) :
    sumDouble frames = frames.sum := by
  have key : ∀ k, k ≤ frames.length → sumDouble (frames.take k) = (frames.take k).sum := by
    intro k
    induction k with
    | zero => intro _; simp [sumDouble]
    | succ k ih =>
      intro hk
      have hlt : k < frames.length := by omega
      have htake : frames.take (k + 1) = frames.take k ++ [frames[k]] := by
        rw [List.take_succ, List.getElem?_eq_getElem hlt]; rfl
      have hx := h (k + 1) hk
      rw [htake] at hx ⊢
      rw [List.sum_append, List.sum_singleton] at hx ⊢
      rw [sumDouble_concat, ih (by omega)]
      exact hx
  have := key frames.length le_rfl
  simpa using this

theorem pow2_1024_pos : 0 < pow2 1024 := by
  unfold pow2
  rw [if_pos (by norm_num)]
  positivity

/-- The rate of a buffer in whose arithmetic no operation rounds or overflows is the
exactly rounded rate. -/
theorem fpsDouble_exact (frames : List ℚ)
    (hsum : ∀ k, k ≤ frames.length → toDouble (frames.take k).sum = (frames.take k).sum)
    (hmean : toDouble (frames.sum / frames.length) = frames.sum / frames.length)
    (hpos : 0 < frames.sum / frames.length)
    (hrate : toDouble (1000 / (frames.sum / frames.length)) =
      1000 / (frames.sum / frames.length))
    (hfin : 1000 / (frames.sum / frames.length) < pow2 1024) :
    fpsDouble frames = .num (⌊1000 / (frames.sum / frames.length) + 1 / 2⌋ : ℤ) := by
  have hq : (0 : ℚ) < 1000 / (frames.sum / frames.length) := by positivity
  have hneg : ¬ 1000 / (frames.sum / frames.length) ≤ -pow2 1024 := by
    have := pow2_1024_pos
    intro h
    linarith
  unfold fpsDouble
  simp only
  rw [sumDouble_exact frames hsum, hmean, if_neg (ne_of_gt hpos), hrate,
    if_neg (not_le.2 hfin), if_neg hneg]

/-- C18, as stated, fails in both halves once the arithmetic is that of doubles, also
when every timestamp is a representable value. First half: a default monitor started at
time 0 records frames at 100, 200 and 400 ms; its buffer holds 100, 100, 200, whose mean
400/3 is positive and gives `round(1000 / mean) = round(7.5) = 8`, but the mean rounds
up to a double, the quotient rounds to a value just below 7.5, and `fps` is 7. Second
half: with `d = 112052140410293 / 2 ^ 43` (about 12.74 ms), a default monitor started at
time 0 records 60 frames at `d`, `2 d`, ..., `60 d`; every recorded delta is `d` and
`1000 / d` lies just below 78.5, so `round(1000 / d) = 78`, but the quotient rounds to
78.5 and `fps` is 79. -/
theorem fps_not_rounded_mean :
    (¬ ∀ (m : Monitor) (now : ℚ), m.isMonitoring = true →
        m.frames.length ≤ m.options.sampleSize →
        toDouble m.lastFrameTime = m.lastFrameTime → toDouble now = now →
        0 < (recordFrameDouble m now).frames.sum / (recordFrameDouble m now).frames.length →
        (recordFrameDouble m now).fps =
          .num (⌊1000 / ((recordFrameDouble m now).frames.sum /
            (recordFrameDouble m now).frames.length) + 1 / 2⌋ : ℤ)) ∧
    (¬ ∀ (m : Monitor) (d : ℚ) (nows : List ℚ), m.isMonitoring = true →
        m.frames.length ≤ m.options.sampleSize →
        toDouble m.lastFrameTime = m.lastFrameTime → (∀ t ∈ nows, toDouble t = t) →
        1 ≤ m.options.sampleSize → 0 < d → m.options.sampleSize ≤ nows.length →
        recordedDeltas m.lastFrameTime nows = List.replicate nows.length d →
        (recordFramesDouble m nows).fps = .num (⌊1000 / d + 1 / 2⌋ : ℤ)) ∧
    (recordFramesDouble (start (new {} 0) 0) [100, 200, 400]).frames = [100, 100, 200] ∧
    (recordFramesDouble (start (new {} 0) 0) [100, 200, 400]).fps = .num 7 ∧
    (recordFramesDouble (start (new {} 0) 0) (ticks 60 (112052140410293 / 2 ^ 43))).fps =
      .num 79 := by
  refine ⟨?_, ?_, by decide!, by decide!, by decide!⟩
  · intro h
    have h1 := h (recordFramesDouble (start (new {} 0) 0) [100, 200]) 400
      (by decide!) (by decide!) (by decide!) (by decide!) (by decide!)
    revert h1
    decide!
  · intro h
    have h1 := h (start (new {} 0) 0) (112052140410293 / 2 ^ 43)
      (ticks 60 (112052140410293 / 2 ^ 43))
      (by decide!) (by decide!) (by decide!) (by decide!) (by decide!) (by decide!)
      (by decide!) (by decide!)
    revert h1
    decide!

/-- C18, amended. For a monitoring monitor whose buffer respects its capacity (every
call keeps it so, see `recordFrameDouble_capacity`), in the double arithmetic of the
source: after a
`recordFrame()` that leaves the buffer non-empty, `fps` is
`Math.round(1000 / avgDelta)`, where `avgDelta` is the rounded quotient of the rounded
sum of the buffered deltas by their number and `1000 / avgDelta` is rounded too
(`fpsDouble`); after `N` or more consecutive frames whose recorded delta is the same `d`,
where `N ≥ 1` is the sample capacity, the buffer holds `N` copies of `d` and `fps` is
that rate of `N` copies of `d`, whatever the buffer held before; and whenever no
operation on the buffer rounds or overflows and the mean is positive, `fps` is
`round(1000 / mean)`, rounding halves upwards. -/
theorem fps_double_rate (m : Monitor) (now d : ℚ) (nows : List ℚ)
    (hm : m.isMonitoring = true) (hbuf : m.frames.length ≤ m.options.sampleSize) :
    ((recordFrameDouble m now).frames ≠ [] →
      (recordFrameDouble m now).fps = fpsDouble (recordFrameDouble m now).frames) ∧
    (1 ≤ m.options.sampleSize → m.options.sampleSize ≤ nows.length →
      recordedDeltas m.lastFrameTime nows = List.replicate nows.length d →
      (recordFramesDouble m nows).frames = List.replicate m.options.sampleSize d ∧
      (recordFramesDouble m nows).fps = fpsDouble (List.replicate m.options.sampleSize d)) ∧
    ((∀ k, k ≤ (recordFrameDouble m now).frames.length →
        toDouble ((recordFrameDouble m now).frames.take k).sum =
          ((recordFrameDouble m now).frames.take k).sum) →
      toDouble ((recordFrameDouble m now).frames.sum /
          (recordFrameDouble m now).frames.length) =
        (recordFrameDouble m now).frames.sum / (recordFrameDouble m now).frames.length →
      0 < (recordFrameDouble m now).frames.sum / (recordFrameDouble m now).frames.length →
      toDouble (1000 / ((recordFrameDouble m now).frames.sum /
          (recordFrameDouble m now).frames.length)) =
        1000 / ((recordFrameDouble m now).frames.sum /
          (recordFrameDouble m now).frames.length) →
      1000 / ((recordFrameDouble m now).frames.sum /
          (recordFrameDouble m now).frames.length) < pow2 1024 →
      (recordFrameDouble m now).fps =
        .num (⌊1000 / ((recordFrameDouble m now).frames.sum /
          (recordFrameDouble m now).frames.length) + 1 / 2⌋ : ℤ)) := by
  have hfps : (recordFrameDouble m now).frames ≠ [] →
      (recordFrameDouble m now).fps = fpsDouble (recordFrameDouble m now).frames := by
    intro hne
    have hr := (recordFrameDouble_monitoring m now hm).2.2.2.2
    have hlen : (recordFrameDouble m now).frames.length > 0 := List.length_pos.2 hne
    rw [hr, if_pos hlen]
  refine ⟨hfps, ?_, ?_⟩
  · intro hN hj hd
    obtain ⟨pre, last, rfl⟩ : ∃ pre last, nows = pre ++ [last] := by
      rcases List.eq_nil_or_concat nows with h0 | ⟨pre, last, h1⟩
      · rw [h0] at hj
        simp at hj
        omega
      · exact ⟨pre, last, by rw [h1, List.concat_eq_append]⟩
    have hlog : m.frames = m.frames.drop (m.frames.length - m.options.sampleSize) := by
      have h0 : m.frames.length - m.options.sampleSize = 0 := by omega
      rw [h0, List.drop_zero]
    have hall := recordFramesDouble_buffer (pre ++ [last]) m m.frames hm hlog
    have hpre := recordFramesDouble_buffer pre m m.frames hm hlog
    have hframes : (recordFramesDouble m (pre ++ [last])).frames =
        List.replicate m.options.sampleSize d := by
      rw [hall.1, hd]
      generalize (pre ++ [last]).length = j at hj
      have hk : (m.frames ++ List.replicate j d).length - m.options.sampleSize =
          m.frames.length + (j - m.options.sampleSize) := by
        simp only [List.length_append, List.length_replicate]
        omega
      rw [hk, List.drop_append, List.drop_replicate]
      congr 1
      omega
    refine ⟨hframes, ?_⟩
    have hlenN : (List.replicate m.options.sampleSize d).length > 0 := by
      rw [List.length_replicate]; omega
    have hfps2 := (recordFrameDouble_monitoring (recordFramesDouble m pre) last
      hpre.2.2).2.2.2.2
    rw [← recordFramesDouble_concat] at hfps2
    rw [hfps2, hframes, if_pos hlenN]
  · intro hsum hmean hpos hrate hfin
    have hne : (recordFrameDouble m now).frames ≠ [] := by
      intro h0
      rw [h0] at hpos
      simp at hpos
    rw [hfps hne]
    exact fpsDouble_exact _ hsum hmean hpos hrate hfin

/-- C18, amended, an instance: a started monitor with capacity 2 shows fps 100 after one
frame of 10 ms, in whose arithmetic nothing rounds, and fps 50 after three frames of
20 ms, when its buffer holds two deltas of 20 ms. -/
theorem fps_double_rate_witness :
    ((start (new { sampleSize := 2 } 0) 0).isMonitoring = true ∧
      (start (new { sampleSize := 2 } 0) 0).frames.length ≤
        (start (new { sampleSize := 2 } 0) 0).options.sampleSize) ∧
    (recordFrameDouble (start (new { sampleSize := 2 } 0) 0) 10).fps = .num 100 ∧
    ((recordFramesDouble (start (new { sampleSize := 2 } 0) 0) [20, 40, 60]).frames =
        [20, 20] ∧
      (recordFramesDouble (start (new { sampleSize := 2 } 0) 0) [20, 40, 60]).fps =
        .num 50) ∧
    (recordFrameDouble (start (new { sampleSize := 2 } 0) 0) 10).fps =
      .num (⌊1000 / ((recordFrameDouble (start (new { sampleSize := 2 } 0) 0) 10).frames.sum /
        (recordFrameDouble (start (new { sampleSize := 2 } 0) 0) 10).frames.length) +
        1 / 2⌋ : ℤ) :=
  ⟨⟨rfl, by decide⟩,
    ((fps_double_rate (start (new { sampleSize := 2 } 0) 0) 10 20 [20, 40, 60] rfl
      (by decide)).1 (by decide!)).trans (by decide!),
    (by
      have h := (fps_double_rate (start (new { sampleSize := 2 } 0) 0) 10 20 [20, 40, 60]
        rfl (by decide)).2.1 (by decide) (by decide) (by decide!)
      exact ⟨h.1.trans (by decide!), h.2.trans (by decide!)⟩),
    (fps_double_rate (start (new { sampleSize := 2 } 0) 0) 10 20 [20, 40, 60] rfl
      (by decide)).2.2 (by decide!) (by decide!) (by decide!) (by decide!) (by decide!)⟩

theorem adjustQuality_settled (m : Monitor) :
    adjustQuality (adjustQuality (adjustQuality m)) = adjustQuality (adjustQuality m) := by
  obtain ⟨o, fr, l, fps, q, fc, im⟩ := m
  cases fps with
  | num v =>
    by_cases h30 : v < 30
    · have h55 : ¬ (55 : ℚ) ≤ v := by linarith
      have h58 : ¬ (58 : ℚ) ≤ v := by linarith
      have h30' : ¬ (30 : ℚ) ≤ v := by linarith
      cases q <;> simp [adjustQuality, JsNum.lt, JsNum.ge, h30, h55, h58, h30']
    · by_cases h50 : v < 50
      · have h55 : ¬ (55 : ℚ) ≤ v := by linarith
        have h58 : ¬ (58 : ℚ) ≤ v := by linarith
        have h30' : (30 : ℚ) ≤ v := by linarith
        cases q <;> simp [adjustQuality, JsNum.lt, JsNum.ge, h30, h50, h55, h58, h30']
      · by_cases h55 : (55 : ℚ) ≤ v
        · by_cases h58 : (58 : ℚ) ≤ v
          · cases q <;> simp [adjustQuality, JsNum.lt, JsNum.ge, h30, h50, h55, h58]
          · cases q <;> simp [adjustQuality, JsNum.lt, JsNum.ge, h30, h50, h55, h58]
        · have h58 : ¬ (58 : ℚ) ≤ v := by linarith
          cases q <;> simp [adjustQuality, JsNum.lt, JsNum.ge, h30, h50, h55, h58]
  | posInf => cases q <;> simp [adjustQuality, JsNum.lt, JsNum.ge]
  | negInf => cases q <;> simp [adjustQuality, JsNum.lt, JsNum.ge]
  | nan => cases q <;> simp [adjustQuality, JsNum.lt, JsNum.ge]

/-- C25 (no flapping at a fixed frame rate). For every monitor (every fps value, finite,
infinite or NaN, and every starting tier), `adjustQuality` leaves `fps` as it is, and
after two applications the monitor no longer changes: every further application gives
the state reached after the second. -/
theorem adjustQuality_no_flapping (m : Monitor) (n : ℕ) :
    (adjustQuality m).fps = m.fps ∧
    adjustQuality^[n + 2] m = adjustQuality^[2] m := by
  refine ⟨adjustQuality_fps m, ?_⟩
  induction n with
  | zero => rfl
  | succ k ih =>
    rw [Function.iterate_succ_apply', ih]
    exact adjustQuality_settled m

end PerformanceMonitor

/-! ## Theorems: CanvasOptimizer -/

namespace CanvasOptimizer

theorem rectsOverlap_comm (r1 r2 : Rect) : rectsOverlap r1 r2 = rectsOverlap r2 r1 := by
  unfold rectsOverlap
  cases decide (r1.x + r1.width < r2.x) <;> cases decide (r2.x + r2.width < r1.x) <;>
    cases decide (r1.y + r1.height < r2.y) <;> cases decide (r2.y + r2.height < r1.y) <;> rfl

theorem mergeRects_comm (r1 r2 : Rect) : mergeRects r1 r2 = mergeRects r2 r1 := by
  simp only [mergeRects, min_comm r1.x, min_comm r1.y, max_comm (r1.x + r1.width),
    max_comm (r1.y + r1.height)]

/-- Two rectangles of non-negative size that share a point (edges included) pass the
test `rectsOverlap`. -/
theorem rectsOverlap_of_common_point (a b : Rect) (px py : ℤ)
    (ha : a.x ≤ px ∧ px ≤ a.x + a.width ∧ a.y ≤ py ∧ py ≤ a.y + a.height)
    (hb : b.x ≤ px ∧ px ≤ b.x + b.width ∧ b.y ≤ py ∧ py ≤ b.y + b.height) :
    rectsOverlap a b = true := by
  simp only [rectsOverlap, Bool.not_eq_true', Bool.or_eq_false_iff, decide_eq_false_iff_not,
    not_lt]
  omega

theorem mergeDirtyRects_pair (a b : Rect) (hov : rectsOverlap a b = true) :
    mergeDirtyRects [a, b] = [mergeRects a b] := by
  have hov' : rectsOverlap b a = true := by rw [rectsOverlap_comm]; exact hov
  by_cases h : a.x ≤ b.x
  · simp [mergeDirtyRects, sortByX, List.insertionSort, List.orderedInsert, h, mergeStep,
      mergeInto, hov', mergeRects_comm b a]
  · simp [mergeDirtyRects, sortByX, List.insertionSort, List.orderedInsert, h, mergeStep,
      mergeInto, hov]

/-- C7 (two overlapping rectangles). For any two rectangles that `rectsOverlap` accepts
(for rectangles of non-negative size: any two that share a point), in whichever order
they were marked, `mergeDirtyRects` returns exactly one rectangle, whose corner is
(min of the two x, min of the two y), whose right edge is the larger right edge and
whose bottom edge is the larger bottom edge. -/
theorem mergeDirtyRects_two_overlapping (a b : Rect) (hov : rectsOverlap a b = true) :
    mergeDirtyRects [a, b] =
      [{ x := min a.x b.x, y := min a.y b.y,
         width := max (a.x + a.width) (b.x + b.width) - min a.x b.x,
         height := max (a.y + a.height) (b.y + b.height) - min a.y b.y }] ∧
    mergeDirtyRects [b, a] =
      [{ x := min a.x b.x, y := min a.y b.y,
         width := max (a.x + a.width) (b.x + b.width) - min a.x b.x,
         height := max (a.y + a.height) (b.y + b.height) - min a.y b.y }] := by
  have hov' : rectsOverlap b a = true := by rw [rectsOverlap_comm]; exact hov
  constructor
  · rw [mergeDirtyRects_pair a b hov]; rfl
  · rw [mergeDirtyRects_pair b a hov', mergeRects_comm]; rfl

/-- C7, an instance: a 4×4 and a 3×3 rectangle that overlap in a 2×2 corner merge into
the 5×5 rectangle at the origin, in either marking order. -/
theorem mergeDirtyRects_two_overlapping_witness :
    rectsOverlap ⟨0, 0, 4, 4⟩ ⟨2, 2, 3, 3⟩ = true ∧
    mergeDirtyRects [⟨0, 0, 4, 4⟩, ⟨2, 2, 3, 3⟩] = [⟨0, 0, 5, 5⟩] ∧
    mergeDirtyRects [⟨2, 2, 3, 3⟩, ⟨0, 0, 4, 4⟩] = [⟨0, 0, 5, 5⟩] :=
  ⟨by decide, mergeDirtyRects_two_overlapping ⟨0, 0, 4, 4⟩ ⟨2, 2, 3, 3⟩ (by decide)⟩

theorem foldl_min_spec (f : Rect → ℤ) (l : List Rect) (a0 : ℤ) :
    l.foldl (fun acc r => min acc (f r)) a0 ≤ a0 ∧
    (∀ r ∈ l, l.foldl (fun acc r => min acc (f r)) a0 ≤ f r) ∧
    (l.foldl (fun acc r => min acc (f r)) a0 = a0 ∨
      ∃ r ∈ l, f r = l.foldl (fun acc r => min acc (f r)) a0) := by
  induction l generalizing a0 with
  | nil => simp
  | cons c t ih =>
    rcases ih (min a0 (f c)) with ⟨h1, h2, h3⟩
    simp only [List.foldl_cons]
    refine ⟨le_trans h1 (min_le_left _ _), ?_, ?_⟩
    · intro r hr
      rcases List.mem_cons.1 hr with rfl | hr
      · exact le_trans h1 (min_le_right _ _)
      · exact h2 r hr
    · rcases h3 with h3 | ⟨r, hr, h3⟩
      · rcases min_choice a0 (f c) with h4 | h4
        · left; rw [h3, h4]
        · right; exact ⟨c, List.mem_cons_self _ _, by rw [h3, h4]⟩
      · right; exact ⟨r, List.mem_cons_of_mem _ hr, h3⟩

theorem foldl_max_spec (f : Rect → ℤ) (l : List Rect) (a0 : ℤ) :
    a0 ≤ l.foldl (fun acc r => max acc (f r)) a0 ∧
    (∀ r ∈ l, f r ≤ l.foldl (fun acc r => max acc (f r)) a0) ∧
    (l.foldl (fun acc r => max acc (f r)) a0 = a0 ∨
      ∃ r ∈ l, f r = l.foldl (fun acc r => max acc (f r)) a0) := by
  induction l generalizing a0 with
  | nil => simp
  | cons c t ih =>
    rcases ih (max a0 (f c)) with ⟨h1, h2, h3⟩
    simp only [List.foldl_cons]
    refine ⟨le_trans (le_max_left _ _) h1, ?_, ?_⟩
    · intro r hr
      rcases List.mem_cons.1 hr with rfl | hr
      · exact le_trans (le_max_right _ _) h1
      · exact h2 r hr
    · rcases h3 with h3 | ⟨r, hr, h3⟩
      · rcases max_choice a0 (f c) with h4 | h4
        · left; rw [h3, h4]
        · right; exact ⟨c, List.mem_cons_self _ _, by rw [h3, h4]⟩
      · right; exact ⟨r, List.mem_cons_of_mem _ hr, h3⟩

theorem foldl_extendBounds (l : List Rect) (b : Bounds) :
    l.foldl extendBounds b =
      { minX := l.foldl (fun acc r => min acc r.x) b.minX
        minY := l.foldl (fun acc r => min acc r.y) b.minY
        maxX := l.foldl (fun acc r => max acc (r.x + r.width)) b.maxX
        maxY := l.foldl (fun acc r => max acc (r.y + r.height)) b.maxY } := by
  induction l generalizing b with
  | nil => rfl
  | cons c t ih => simp only [List.foldl_cons, ih, extendBounds]

/-- The rectangle returned by `getBoundingRect` for a non-empty list: its left and top
edges are the least `x` and `y` of the list, its right and bottom edges the greatest
`x + width` and `y + height`. -/
theorem getBoundingRect_spec (first : Rect) (rest : List Rect) :
    ∃ b, getBoundingRect (first :: rest) = some b ∧
      (∀ r ∈ first :: rest, b.x ≤ r.x) ∧ (∃ r ∈ first :: rest, r.x = b.x) ∧
      (∀ r ∈ first :: rest, b.y ≤ r.y) ∧ (∃ r ∈ first :: rest, r.y = b.y) ∧
      (∀ r ∈ first :: rest, r.x + r.width ≤ b.x + b.width) ∧
      (∃ r ∈ first :: rest, r.x + r.width = b.x + b.width) ∧
      (∀ r ∈ first :: rest, r.y + r.height ≤ b.y + b.height) ∧
      (∃ r ∈ first :: rest, r.y + r.height = b.y + b.height) := by
  refine ⟨_, rfl, ?_⟩
  simp only [foldl_extendBounds, add_sub_cancel]
  have hx := foldl_min_spec (fun r => r.x) rest first.x
  have hy := foldl_min_spec (fun r => r.y) rest first.y
  have hr := foldl_max_spec (fun r => r.x + r.width) rest (first.x + first.width)
  have hb := foldl_max_spec (fun r => r.y + r.height) rest (first.y + first.height)
  refine ⟨?_, ?_, ?_, ?_, ?_, ?_, ?_, ?_⟩
  · intro r h
    rcases List.mem_cons.1 h with rfl | h
    · exact hx.1
    · exact hx.2.1 r h
  · rcases hx.2.2 with h | ⟨r, h1, h2⟩
    · exact ⟨first, List.mem_cons_self _ _, h.symm⟩
    · exact ⟨r, List.mem_cons_of_mem _ h1, h2⟩
  · intro r h
    rcases List.mem_cons.1 h with rfl | h
    · exact hy.1
    · exact hy.2.1 r h
  · rcases hy.2.2 with h | ⟨r, h1, h2⟩
    · exact ⟨first, List.mem_cons_self _ _, h.symm⟩
    · exact ⟨r, List.mem_cons_of_mem _ h1, h2⟩
  · intro r h
    rcases List.mem_cons.1 h with rfl | h
    · exact hr.1
    · exact hr.2.1 r h
  · rcases hr.2.2 with h | ⟨r, h1, h2⟩
    · exact ⟨first, List.mem_cons_self _ _, h.symm⟩
    · exact ⟨r, List.mem_cons_of_mem _ h1, h2⟩
  · intro r h
    rcases List.mem_cons.1 h with rfl | h
    · exact hb.1
    · exact hb.2.1 r h
  · rcases hb.2.2 with h | ⟨r, h1, h2⟩
    · exact ⟨first, List.mem_cons_self _ _, h.symm⟩
    · exact ⟨r, List.mem_cons_of_mem _ h1, h2⟩

/-- C8 (more than ten rectangles). For every dirty list of more than 10 rectangles,
`mergeDirtyRects` returns exactly one rectangle, the one `getBoundingRect` computes for
the list: its `x` and `y` are the least `x` and `y` of the list, and `x + width` and
`y + height` are the greatest `x + width` and `y + height` of the list (each bound is
attained by a rectangle of the list). `getBoundingRect` of the empty list is `null`. -/
theorem mergeDirtyRects_many (rects : List Rect) (hlen : 10 < rects.length) :
    (∃ b, mergeDirtyRects rects = [b] ∧ getBoundingRect rects = some b ∧
      (∀ r ∈ rects, b.x ≤ r.x) ∧ (∃ r ∈ rects, r.x = b.x) ∧
      (∀ r ∈ rects, b.y ≤ r.y) ∧ (∃ r ∈ rects, r.y = b.y) ∧
      (∀ r ∈ rects, r.x + r.width ≤ b.x + b.width) ∧
      (∃ r ∈ rects, r.x + r.width = b.x + b.width) ∧
      (∀ r ∈ rects, r.y + r.height ≤ b.y + b.height) ∧
      (∃ r ∈ rects, r.y + r.height = b.y + b.height)) ∧
    getBoundingRect [] = none := by
  refine ⟨?_, rfl⟩
  cases rects with
  | nil => simp at hlen
  | cons first rest =>
    rcases getBoundingRect_spec first rest with ⟨b, hb, hspec⟩
    refine ⟨b, ?_, hb, hspec⟩
    have h0 : (first :: rest).length ≠ 0 := by simp
    have h1 : (first :: rest).length ≠ 1 := by omega
    simp only [mergeDirtyRects, h0, h1, if_false, gt_iff_lt, hlen, if_true, hb]

/-- C8, an instance: eleven disjoint unit squares on a diagonal collapse into the single
11×11 rectangle at the origin. -/
theorem mergeDirtyRects_many_witness :
    10 < diagonalSquares.length ∧ mergeDirtyRects diagonalSquares = [⟨0, 0, 11, 11⟩] := by
  refine ⟨by decide, ?_⟩
  rcases (mergeDirtyRects_many diagonalSquares (by decide)).1 with ⟨b, h1, h2, -⟩
  have h3 : getBoundingRect diagonalSquares = some ⟨0, 0, 11, 11⟩ := by decide
  rw [h1]
  rw [h3] at h2
  cases h2
  rfl

theorem within_mergeRects (b r1 r2 : Rect) (h1 : b.Within r1) (h2 : b.Within r2) :
    b.Within (mergeRects r1 r2) := by
  obtain ⟨⟨hw1, hh1⟩, ha1, hb1, hc1, hd1⟩ := h1
  obtain ⟨⟨hw2, hh2⟩, ha2, hb2, hc2, hd2⟩ := h2
  simp only [Rect.Within, Rect.NonNeg, mergeRects]
  refine ⟨⟨?_, ?_⟩, ?_, ?_, ?_, ?_⟩ <;> omega

theorem within_mergeInto (b current : Rect) (merged out : List Rect)
    (hc : b.Within current) (hm : ∀ r ∈ merged, b.Within r)
    (ho : mergeInto current merged = some out) : ∀ r ∈ out, b.Within r := by
  induction merged generalizing out with
  | nil => simp [mergeInto] at ho
  | cons m ms ih =>
    unfold mergeInto at ho
    split at ho
    · cases ho
      intro r hr
      rcases List.mem_cons.1 hr with rfl | hr
      · exact within_mergeRects b current m hc (hm m (List.mem_cons_self _ _))
      · exact hm r (List.mem_cons_of_mem _ hr)
    · cases hrest : mergeInto current ms with
      | none => rw [hrest] at ho; simp at ho
      | some rest =>
        rw [hrest] at ho
        simp only [Option.map_some', Option.some.injEq] at ho
        subst ho
        intro r hr
        rcases List.mem_cons.1 hr with rfl | hr
        · exact hm r (List.mem_cons_self _ _)
        · exact ih rest (fun r hr => hm r (List.mem_cons_of_mem _ hr)) hrest r hr

theorem within_mergeStep (b current : Rect) (merged : List Rect)
    (hc : b.Within current) (hm : ∀ r ∈ merged, b.Within r) :
    ∀ r ∈ mergeStep merged current, b.Within r := by
  unfold mergeStep
  cases ho : mergeInto current merged with
  | none =>
    intro r hr
    rcases List.mem_append.1 hr with hr | hr
    · exact hm r hr
    · simp at hr; subst hr; exact hc
  | some out => exact within_mergeInto b current merged out hc hm ho

theorem within_foldl_mergeStep (b : Rect) (sorted merged : List Rect)
    (hs : ∀ r ∈ sorted, b.Within r) (hm : ∀ r ∈ merged, b.Within r) :
    ∀ r ∈ sorted.foldl mergeStep merged, b.Within r := by
  induction sorted generalizing merged with
  | nil => exact hm
  | cons c t ih =>
    simp only [List.foldl_cons]
    exact ih (mergeStep merged c) (fun r hr => hs r (List.mem_cons_of_mem _ hr))
      (within_mergeStep b c merged (hs c (List.mem_cons_self _ _)) hm)

theorem mem_sortByX (rects : List Rect) (r : Rect) : r ∈ sortByX rects ↔ r ∈ rects :=
  (List.perm_insertionSort _ rects).mem_iff

theorem covers_of_within (b r : Rect) (h : b.Within r) (px py : ℚ) (hc : r.covers px py) :
    b.covers px py := by
  obtain ⟨⟨hw, hh⟩, ha, hb, hc1, hd⟩ := h
  unfold Rect.covers at hc ⊢
  rw [min_eq_left (by omega), max_eq_right (by omega), min_eq_left (by omega),
    max_eq_right (by omega)] at hc
  rw [min_eq_left (by omega), max_eq_right (by omega), min_eq_left (by omega),
    max_eq_right (by omega)]
  obtain ⟨c1, c2, c3, c4⟩ := hc
  have ha' : (b.x : ℚ) ≤ r.x := by exact_mod_cast ha
  have hb' : ((r.x + r.width : ℤ) : ℚ) ≤ ((b.x + b.width : ℤ) : ℚ) := by exact_mod_cast hb
  have hc' : (b.y : ℚ) ≤ r.y := by exact_mod_cast hc1
  have hd' : ((r.y + r.height : ℤ) : ℚ) ≤ ((b.y + b.height : ℤ) : ℚ) := by exact_mod_cast hd
  exact ⟨le_trans ha' c1, lt_of_lt_of_le c2 hb', le_trans hc' c3, lt_of_lt_of_le c4 hd'⟩

/-- Every rectangle that `mergeDirtyRects` returns for a non-empty list of rectangles of
non-negative size lies inside the bounding rectangle of the list. -/
theorem mergeDirtyRects_within (first : Rect) (rest : List Rect)
    (hsize : ∀ m ∈ first :: rest, m.NonNeg) :
    ∃ b, getBoundingRect (first :: rest) = some b ∧
      ∀ r ∈ mergeDirtyRects (first :: rest), b.Within r := by
  rcases getBoundingRect_spec first rest with ⟨b, hb, hx, -, hy, -, hr, -, hbt, -⟩
  refine ⟨b, hb, ?_⟩
  have hin : ∀ r ∈ first :: rest, b.Within r := fun r h =>
    ⟨hsize r h, hx r h, hr r h, hy r h, hbt r h⟩
  have h0 : (first :: rest).length ≠ 0 := by simp
  simp only [mergeDirtyRects, h0, if_false]
  split
  · exact hin
  · split
    · rw [hb]
      intro r h
      simp only [List.mem_singleton] at h
      subst h
      have hf := hin first (List.mem_cons_self _ _)
      obtain ⟨⟨hw, hh⟩, ha, hb1, hc1, hd⟩ := hf
      refine ⟨⟨?_, ?_⟩, ?_, ?_, ?_, ?_⟩ <;> omega
    · exact within_foldl_mergeStep b _ [] (fun r h => hin r ((mem_sortByX _ r).1 h))
        (fun r h => by simp at h)

/-- C9, as stated, fails: for the dirty list of the two overlapping 2×2 squares at (0, 0)
and (1, 1), `clearDirtyRegions` clears the 3×3 square at the origin, which covers the
point (5/2, 1/2) that lies in neither marked square. -/
theorem clearDirtyRegions_paints_unmarked :
    ¬ ∀ (dirtyRects : List Rect), ∀ r ∈ clearDirtyRegions dirtyRects, ∀ px py : ℚ,
        r.covers px py → ∃ m ∈ dirtyRects, m.covers px py := by
  intro h
  have h1 := h [⟨0, 0, 2, 2⟩, ⟨1, 1, 2, 2⟩] ⟨0, 0, 3, 3⟩ (by decide) (5 / 2) (1 / 2)
    (by decide!)
  revert h1
  decide!

/-- C9, amended. For every dirty list of rectangles of non-negative size, every point of
every rectangle that `clearDirtyRegions` clears lies inside the bounding rectangle
(`getBoundingRect`) of the dirty list; and for the empty list nothing is cleared. -/
theorem clearDirtyRegions_within_bounds (dirtyRects : List Rect)
    (hsize : ∀ m ∈ dirtyRects, 0 ≤ m.width ∧ 0 ≤ m.height) :
    (∀ r ∈ clearDirtyRegions dirtyRects, ∀ px py : ℚ, r.covers px py →
      ∃ b, getBoundingRect dirtyRects = some b ∧ b.covers px py) ∧
    clearDirtyRegions [] = [] := by
  refine ⟨?_, rfl⟩
  cases dirtyRects with
  | nil => intro r h; simp [clearDirtyRegions] at h
  | cons first rest =>
    intro r h px py hc
    rcases mergeDirtyRects_within first rest hsize with ⟨b, hb, hall⟩
    have h0 : (first :: rest).length ≠ 0 := by simp
    simp only [clearDirtyRegions, h0, if_false] at h
    exact ⟨b, hb, covers_of_within b r (hall r h) px py hc⟩

/-- C9 amended, an instance: the point (5/2, 1/2) cleared for the two overlapping squares
lies in their bounding rectangle, the 3×3 square at the origin. -/
theorem clearDirtyRegions_within_bounds_witness :
    (∀ m ∈ [(⟨0, 0, 2, 2⟩ : Rect), ⟨1, 1, 2, 2⟩], 0 ≤ m.width ∧ 0 ≤ m.height) ∧
    ∃ b, getBoundingRect [⟨0, 0, 2, 2⟩, ⟨1, 1, 2, 2⟩] = some b ∧ b.covers (5 / 2) (1 / 2) :=
  ⟨by decide,
    (clearDirtyRegions_within_bounds [⟨0, 0, 2, 2⟩, ⟨1, 1, 2, 2⟩] (by decide)).1
      ⟨0, 0, 3, 3⟩ (by decide) (5 / 2) (1 / 2) (by decide!)⟩

/-- C16, as stated, fails: when the draw callback throws in the first frame of a loop
built by `createOptimizedLoop`, the exception escapes from `loop` and no further frame
is queued. -/
theorem loop_throw_escapes :
    ¬ ∀ (drawCallback : ℚ → Optimizer → DrawOutcome) (s : LoopState) (currentTime : ℚ),
        (drawCallback (currentTime - s.lastFrameTime) s.optimizer).threw = true →
        (loop drawCallback s currentTime).escaped = false ∧
        1 ≤ (loop drawCallback s currentTime).state.queued := by
  intro h
  have h1 := (h (fun _ o => { optimizer := o, threw := true })
    (createOptimizedLoop { canvasWidth := 300, canvasHeight := 150, dirtyRects := [] })
    16 rfl).1
  revert h1
  decide

/-- C16, amended. In the frame loop built by `createOptimizedLoop`, a frame in which the
draw callback returns normally empties the dirty list and queues exactly one next frame;
a frame in which the draw callback throws lets the exception escape, keeps the dirty
list the callback left and queues no next frame. -/
theorem loop_frame_outcome (drawCallback : ℚ → Optimizer → DrawOutcome) (s : LoopState)
    (currentTime : ℚ) :
    ((drawCallback (currentTime - s.lastFrameTime) s.optimizer).threw = false →
      (loop drawCallback s currentTime).escaped = false ∧
      (loop drawCallback s currentTime).state.queued = s.queued - 1 + 1 ∧
      (loop drawCallback s currentTime).state.optimizer.dirtyRects = []) ∧
    ((drawCallback (currentTime - s.lastFrameTime) s.optimizer).threw = true →
      (loop drawCallback s currentTime).escaped = true ∧
      (loop drawCallback s currentTime).state.queued = s.queued - 1 ∧
      (loop drawCallback s currentTime).state.optimizer =
        (drawCallback (currentTime - s.lastFrameTime) s.optimizer).optimizer) := by
  constructor
  · intro h
    simp [loop, h, clearDirtyRectsList]
  · intro h
    simp [loop, h]

/-- C23, as stated, fails: `markDirty(0, 0, -5, -5)` on a fresh optimizer records a
rectangle of width -5 and height -5. -/
theorem markDirty_negative_size :
    ¬ ∀ (canvasWidth canvasHeight : ℕ) (marks : List Mark),
        ∀ r ∈ (runMarks (new canvasWidth canvasHeight) marks).dirtyRects,
          0 ≤ r.width ∧ 0 ≤ r.height := by
  intro h
  have h1 := h 300 150 [.markDirty 0 0 (-5) (-5)] ⟨0, 0, -5, -5⟩ (by decide!)
  revert h1
  decide

theorem runMarks_nonneg (marks : List Mark) (o : Optimizer)
    (ho : ∀ r ∈ o.dirtyRects, 0 ≤ r.width ∧ 0 ≤ r.height)
    (hargs : ∀ m ∈ marks, m.NonnegSize) :
    ∀ r ∈ (runMarks o marks).dirtyRects, 0 ≤ r.width ∧ 0 ≤ r.height := by
  induction marks generalizing o with
  | nil => exact ho
  | cons m rest ih =>
    have hrun : runMarks o (m :: rest) = runMarks (applyMark o m) rest := rfl
    rw [hrun]
    apply ih
    · cases m with
      | markDirty x y width height =>
        have hm : 0 ≤ width ∧ 0 ≤ height := hargs _ (List.mem_cons_self _ _)
        intro r hr
        have hr : r ∈ o.dirtyRects ++ [⟨⌊x⌋, ⌊y⌋, ⌈width⌉, ⌈height⌉⟩] := hr
        rcases List.mem_append.1 hr with h | h
        · exact ho r h
        · simp only [List.mem_singleton] at h
          subst h
          exact ⟨Int.ceil_nonneg hm.1, Int.ceil_nonneg hm.2⟩
      | markAllDirty =>
        intro r hr
        have hr : r ∈ [(⟨0, 0, o.canvasWidth, o.canvasHeight⟩ : Rect)] := hr
        simp only [List.mem_singleton] at hr
        subst hr
        exact ⟨Int.natCast_nonneg _, Int.natCast_nonneg _⟩
    · intro m' hm'
      exact hargs m' (List.mem_cons_of_mem _ hm')

/-- C23, amended. For every sequence of `markDirty` and `markAllDirty` calls on a fresh
`CanvasOptimizer` in which every `markDirty` call passes a width ≥ 0 and a height ≥ 0
(and any x and y), every rectangle in the dirty set has integer x, y, width and height
(by the type of `Rect`) with width ≥ 0 and height ≥ 0; and `markDirty` appends the
rectangle floor(x), floor(y), ceil(width), ceil(height), whatever its arguments. -/
theorem dirtyRects_nonneg (canvasWidth canvasHeight : ℕ) (marks : List Mark)
    (hargs : ∀ m ∈ marks, m.NonnegSize) (o : Optimizer) (x y width height : ℚ) :
    (∀ r ∈ (runMarks (new canvasWidth canvasHeight) marks).dirtyRects,
      0 ≤ r.width ∧ 0 ≤ r.height) ∧
    (markDirty o x y width height).dirtyRects =
      o.dirtyRects ++ [⟨⌊x⌋, ⌊y⌋, ⌈width⌉, ⌈height⌉⟩] :=
  ⟨runMarks_nonneg marks (new canvasWidth canvasHeight) (fun r h => by simp [new] at h) hargs,
    rfl⟩

/-- C23 amended, an instance: a fractional region and the whole canvas. -/
theorem dirtyRects_nonneg_witness :
    (∀ m ∈ [Mark.markDirty (1 / 2) (-3 / 2) (5 / 2) 0, .markAllDirty], m.NonnegSize) ∧
    ∀ r ∈ (runMarks (new 300 150)
        [Mark.markDirty (1 / 2) (-3 / 2) (5 / 2) 0, .markAllDirty]).dirtyRects,
      0 ≤ r.width ∧ 0 ≤ r.height := by
  have hargs : ∀ m ∈ [Mark.markDirty (1 / 2) (-3 / 2) (5 / 2) 0, .markAllDirty],
      m.NonnegSize := by
    intro m hm
    simp only [List.mem_cons, List.mem_singleton, List.not_mem_nil, or_false] at hm
    rcases hm with rfl | rfl
    · exact ⟨by norm_num, le_refl 0⟩
    · trivial
  exact ⟨hargs, (dirtyRects_nonneg 300 150 _ hargs (new 300 150) 0 0 0 0).1⟩

/-- C27, at the failing input `markDirty(0.5, 0, 1, 1)`: the rectangle recorded is
(0, 0, 1, 1), whose right edge 0 + 1 lies left of the requested right edge 0.5 + 1. -/
theorem markDirty_misses_right_edge :
    (markDirty (new 300 150) (1 / 2) 0 1 1).dirtyRects = [⟨0, 0, 1, 1⟩] ∧
    (((⌊(1 / 2 : ℚ)⌋ + ⌈(1 : ℚ)⌉ : ℤ) : ℚ) < 1 / 2 + 1) := by
  constructor <;> decide!

theorem encloses_mergeRects_left (r1 r2 : Rect) : (mergeRects r1 r2).Encloses r1 := by
  simp only [Rect.Encloses, mergeRects]
  refine ⟨?_, ?_, ?_, ?_⟩ <;> omega

theorem encloses_mergeRects_right (r1 r2 : Rect) : (mergeRects r1 r2).Encloses r2 := by
  simp only [Rect.Encloses, mergeRects]
  refine ⟨?_, ?_, ?_, ?_⟩ <;> omega

theorem encloses_refl (r : Rect) : r.Encloses r :=
  ⟨le_refl _, le_refl _, le_refl _, le_refl _⟩

theorem encloses_trans (a b c : Rect) (h1 : a.Encloses b) (h2 : b.Encloses c) :
    a.Encloses c := by
  obtain ⟨a1, a2, a3, a4⟩ := h1
  obtain ⟨b1, b2, b3, b4⟩ := h2
  exact ⟨by omega, by omega, by omega, by omega⟩

/-- A successful `mergeInto` keeps every rectangle that was enclosed by an entry
enclosed, and encloses the rectangle merged in. -/
theorem enclosed_mergeInto (current : Rect) (merged out : List Rect)
    (ho : mergeInto current merged = some out) :
    (∃ e ∈ out, e.Encloses current) ∧
    ∀ r, (∃ e ∈ merged, e.Encloses r) → ∃ e ∈ out, e.Encloses r := by
  induction merged generalizing out with
  | nil => simp [mergeInto] at ho
  | cons m ms ih =>
    unfold mergeInto at ho
    split at ho
    · cases ho
      refine ⟨⟨_, List.mem_cons_self _ _, encloses_mergeRects_left current m⟩, ?_⟩
      rintro r ⟨e, he, hr⟩
      rcases List.mem_cons.1 he with rfl | he
      · exact ⟨_, List.mem_cons_self _ _,
          encloses_trans _ _ _ (encloses_mergeRects_right current e) hr⟩
      · exact ⟨e, List.mem_cons_of_mem _ he, hr⟩
    · cases hrest : mergeInto current ms with
      | none => rw [hrest] at ho; simp at ho
      | some rest =>
        rw [hrest] at ho
        simp only [Option.map_some', Option.some.injEq] at ho
        subst ho
        obtain ⟨⟨e, he, hc⟩, hall⟩ := ih rest hrest
        refine ⟨⟨e, List.mem_cons_of_mem _ he, hc⟩, ?_⟩
        rintro r ⟨e', he', hr⟩
        rcases List.mem_cons.1 he' with rfl | he'
        · exact ⟨e', List.mem_cons_self _ _, hr⟩
        · obtain ⟨e'', he'', hr''⟩ := hall r ⟨e', he', hr⟩
          exact ⟨e'', List.mem_cons_of_mem _ he'', hr''⟩

theorem enclosed_mergeStep (current : Rect) (merged : List Rect) :
    (∃ e ∈ mergeStep merged current, e.Encloses current) ∧
    ∀ r, (∃ e ∈ merged, e.Encloses r) → ∃ e ∈ mergeStep merged current, e.Encloses r := by
  unfold mergeStep
  cases ho : mergeInto current merged with
  | none =>
    refine ⟨⟨current, by simp, encloses_refl current⟩, ?_⟩
    rintro r ⟨e, he, hr⟩
    exact ⟨e, List.mem_append_left _ he, hr⟩
  | some out => exact enclosed_mergeInto current merged out ho

theorem enclosed_foldl_mergeStep (sorted merged : List Rect) (r : Rect)
    (h : (∃ e ∈ merged, e.Encloses r) ∨ r ∈ sorted) :
    ∃ e ∈ sorted.foldl mergeStep merged, e.Encloses r := by
  induction sorted generalizing merged with
  | nil =>
    rcases h with h | h
    · exact h
    · simp at h
  | cons c t ih =>
    simp only [List.foldl_cons]
    apply ih
    rcases h with h | h
    · exact Or.inl ((enclosed_mergeStep c merged).2 r h)
    · rcases List.mem_cons.1 h with rfl | h
      · exact Or.inl (enclosed_mergeStep r merged).1
      · exact Or.inr h

/-- C24 (merge coverage). For every dirty list, in particular every non-empty one of any
length, every rectangle of the list is enclosed by at least one of the rectangles that
`mergeDirtyRects` returns (edge by edge; for a rectangle of non-negative size this means
that every point it covers is covered by the returned rectangle), and `mergeDirtyRects`
leaves the optimizer, its dirty list included, unchanged. -/
theorem mergeDirtyRects_covers (o : Optimizer) :
    (∀ r ∈ o.dirtyRects, ∃ out ∈ o.mergeDirtyRects.1,
      out.Encloses r ∧
      (0 ≤ r.width ∧ 0 ≤ r.height → ∀ px py : ℚ, r.covers px py → out.covers px py)) ∧
    o.mergeDirtyRects.2 = o := by
  refine ⟨?_, rfl⟩
  intro r hr
  have key : ∃ out ∈ mergeDirtyRects o.dirtyRects, out.Encloses r := by
    cases hl : o.dirtyRects with
    | nil => rw [hl] at hr; simp at hr
    | cons first rest =>
      rw [hl] at hr
      have h0 : (first :: rest).length ≠ 0 := by simp
      simp only [mergeDirtyRects, h0, if_false]
      split
      · exact ⟨r, hr, encloses_refl r⟩
      · split
        · rcases getBoundingRect_spec first rest with ⟨b, hb, hx, -, hy, -, hrt, -, hbt, -⟩
          rw [hb]
          exact ⟨b, List.mem_singleton_self b, hx r hr, hrt r hr, hy r hr, hbt r hr⟩
        · exact enclosed_foldl_mergeStep _ [] r (Or.inr ((mem_sortByX _ r).2 hr))
  obtain ⟨out, hout, henc⟩ := key
  exact ⟨out, hout, henc, fun hnn px py hc => covers_of_within out r ⟨hnn, henc⟩ px py hc⟩

/-- The dirty list of two rectangles that do not overlap comes back sorted by `x`. -/
theorem mergeDirtyRects_pair_apart (a b : Rect) (hov : rectsOverlap a b = false) :
    mergeDirtyRects [a, b] = (if a.x ≤ b.x then [a, b] else [b, a]) := by
  have hov' : rectsOverlap b a = false := by rw [rectsOverlap_comm]; exact hov
  by_cases h : a.x ≤ b.x
  · simp [mergeDirtyRects, sortByX, List.insertionSort, List.orderedInsert, h, mergeStep,
      mergeInto, hov']
  · simp [mergeDirtyRects, sortByX, List.insertionSort, List.orderedInsert, h, mergeStep,
      mergeInto, hov]

/-- C29, as stated, fails: for the three rectangles (0,0,1,1), (0,5,1,1) and (0,0,1,6)
of non-negative size, `mergeDirtyRects` returns (0,0,1,6) and (0,5,1,1), which
overlap. -/
theorem mergeDirtyRects_overlapping_result :
    ¬ ∀ (rects : List Rect), 2 ≤ rects.length → rects.length ≤ 10 →
        (∀ r ∈ rects, 0 ≤ r.width ∧ 0 ≤ r.height) →
        ∀ (i j : ℕ) (r1 r2 : Rect), i ≠ j → (mergeDirtyRects rects)[i]? = some r1 →
          (mergeDirtyRects rects)[j]? = some r2 → rectsOverlap r1 r2 = false := by
  intro h
  have h1 := h [⟨0, 0, 1, 1⟩, ⟨0, 5, 1, 1⟩, ⟨0, 0, 1, 6⟩] (by decide) (by decide) (by decide)
    0 1 ⟨0, 0, 1, 6⟩ ⟨0, 5, 1, 1⟩ (by decide) (by decide) (by decide)
  revert h1
  decide

/-- C29, amended. For every dirty list of exactly two rectangles, no two of the
rectangles returned by `mergeDirtyRects` overlap each other: `rectsOverlap` is false for
every pair of returned rectangles at different positions. -/
theorem mergeDirtyRects_two_disjoint (a b : Rect) (i j : ℕ) (r1 r2 : Rect) (hij : i ≠ j)
    (h1 : (mergeDirtyRects [a, b])[i]? = some r1)
    (h2 : (mergeDirtyRects [a, b])[j]? = some r2) : rectsOverlap r1 r2 = false := by
  cases hov : rectsOverlap a b with
  | true =>
    rw [mergeDirtyRects_pair a b hov] at h1 h2
    have hi : i = 0 := by
      cases i with
      | zero => rfl
      | succ n => simp at h1
    have hj : j = 0 := by
      cases j with
      | zero => rfl
      | succ n => simp at h2
    exact absurd (hi.trans hj.symm) hij
  | false =>
    have hov' : rectsOverlap b a = false := by rw [rectsOverlap_comm]; exact hov
    rw [mergeDirtyRects_pair_apart a b hov] at h1 h2
    by_cases hx : a.x ≤ b.x
    · rw [if_pos hx] at h1 h2
      match i, j, hij, h1, h2 with
      | 0, 0, hij, _, _ => exact absurd rfl hij
      | 0, 1, _, h1, h2 =>
        simp only [List.getElem?_cons_zero, List.getElem?_cons_succ, Option.some.injEq] at h1 h2
        rw [← h1, ← h2]; exact hov
      | 1, 0, _, h1, h2 =>
        simp only [List.getElem?_cons_zero, List.getElem?_cons_succ, Option.some.injEq] at h1 h2
        rw [← h1, ← h2]; exact hov'
      | 1, 1, hij, _, _ => exact absurd rfl hij
      | n + 2, _, _, h1, _ => simp at h1
      | _, n + 2, _, _, h2 => simp at h2
    · rw [if_neg hx] at h1 h2
      match i, j, hij, h1, h2 with
      | 0, 0, hij, _, _ => exact absurd rfl hij
      | 0, 1, _, h1, h2 =>
        simp only [List.getElem?_cons_zero, List.getElem?_cons_succ, Option.some.injEq] at h1 h2
        rw [← h1, ← h2]; exact hov'
      | 1, 0, _, h1, h2 =>
        simp only [List.getElem?_cons_zero, List.getElem?_cons_succ, Option.some.injEq] at h1 h2
        rw [← h1, ← h2]; exact hov
      | 1, 1, hij, _, _ => exact absurd rfl hij
      | n + 2, _, _, h1, _ => simp at h1
      | _, n + 2, _, _, h2 => simp at h2

/-- C29 amended, an instance: two unit squares far apart come back as they are and do
not overlap. -/
theorem mergeDirtyRects_two_disjoint_witness :
    ((0 : ℕ) ≠ 1 ∧ (mergeDirtyRects [⟨0, 0, 1, 1⟩, ⟨5, 5, 1, 1⟩])[0]? = some ⟨0, 0, 1, 1⟩ ∧
      (mergeDirtyRects [⟨0, 0, 1, 1⟩, ⟨5, 5, 1, 1⟩])[1]? = some ⟨5, 5, 1, 1⟩) ∧
    rectsOverlap ⟨0, 0, 1, 1⟩ ⟨5, 5, 1, 1⟩ = false :=
  ⟨⟨by decide, by decide, by decide⟩,
    mergeDirtyRects_two_disjoint ⟨0, 0, 1, 1⟩ ⟨5, 5, 1, 1⟩ 0 1 _ _ (by decide) (by decide)
      (by decide)⟩

/-- C26, at the failing input: a draw callback that marks the square (0, 0, 10, 10) in
every frame, on a fresh loop. In the first frame the callback leaves the square in the
dirty list, but the frame ends with an empty list, and the second frame's
`clearDirtyRegions` clears nothing. -/
theorem loop_discards_marks :
    (markingCallback 16 (new 300 150)).optimizer.dirtyRects = [⟨0, 0, 10, 10⟩] ∧
    (loop markingCallback (createOptimizedLoop (new 300 150)) 16).state.optimizer.dirtyRects
      = [] ∧
    (loop markingCallback
      (loop markingCallback (createOptimizedLoop (new 300 150)) 16).state 32).state.cleared
      = [] := by
  refine ⟨?_, ?_, ?_⟩ <;> decide!

end CanvasOptimizer

/-! ## Theorems: ParticleSystem -/

namespace ParticleSystem

/-- After one `updateParticle` step on a canvas of non-negative size the particle is
inside the canvas, wherever it was before. -/
theorem updateParticle_inside (options : Options) (width height : ℚ)
    (hw : 0 ≤ width) (hh : 0 ≤ height) (p : Particle) :
    0 ≤ (updateParticle options width height p).x ∧
    (updateParticle options width height p).x ≤ width ∧
    0 ≤ (updateParticle options width height p).y ∧
    (updateParticle options width height p).y ≤ height := by
  simp only [updateParticle, Bool.or_eq_true, decide_eq_true_eq]
  refine ⟨?_, ?_, ?_, ?_⟩
  · split
    · exact le_max_left _ _
    · rename_i h; push_neg at h; exact h.1
  · split
    · exact max_le hw (min_le_left _ _)
    · rename_i h; push_neg at h; exact h.2
  · split
    · exact le_max_left _ _
    · rename_i h; push_neg at h; exact h.1
  · split
    · exact max_le hh (min_le_left _ _)
    · rename_i h; push_neg at h; exact h.2

/-- C10 (boundary containment). On a canvas of width ≥ 0 and height ≥ 0, for every
gravity and friction, every bounce in (0, 1) and every particle that starts with
0 ≤ x ≤ width and 0 ≤ y ≤ height, the particle still has 0 ≤ x ≤ width and
0 ≤ y ≤ height after any number of `updateParticle` steps. -/
theorem updateParticle_contained (options : Options) (width height : ℚ)
    (hw : 0 ≤ width) (hh : 0 ≤ height)
    (_hbounce : 0 < options.bounce ∧ options.bounce < 1) (p : Particle)
    (hstart : 0 ≤ p.x ∧ p.x ≤ width ∧ 0 ≤ p.y ∧ p.y ≤ height) (steps : ℕ) :
    0 ≤ ((updateParticle options width height)^[steps] p).x ∧
    ((updateParticle options width height)^[steps] p).x ≤ width ∧
    0 ≤ ((updateParticle options width height)^[steps] p).y ∧
    ((updateParticle options width height)^[steps] p).y ≤ height := by
  cases steps with
  | zero => exact hstart
  | succ n =>
    rw [Function.iterate_succ_apply']
    exact updateParticle_inside options width height hw hh _

/-- C10, an instance: with the default options on a 100×100 canvas, a particle in the
middle moving right at 60 per frame overshoots the right wall on the first step and is
still inside after 3 steps. -/
theorem updateParticle_contained_witness :
    ((0 : ℚ) ≤ 100 ∧ (0 : ℚ) ≤ 100 ∧ (0 < ({} : Options).bounce ∧ ({} : Options).bounce < 1) ∧
      ((0 : ℚ) ≤ 50 ∧ (50 : ℚ) ≤ 100 ∧ (0 : ℚ) ≤ 50 ∧ (50 : ℚ) ≤ 100)) ∧
    (0 ≤ ((updateParticle {} 100 100)^[3] ⟨50, 50, 60, 0, 2, 1, 1 / 1000, "", "cosmic"⟩).x ∧
      ((updateParticle {} 100 100)^[3] ⟨50, 50, 60, 0, 2, 1, 1 / 1000, "", "cosmic"⟩).x ≤ 100 ∧
      0 ≤ ((updateParticle {} 100 100)^[3] ⟨50, 50, 60, 0, 2, 1, 1 / 1000, "", "cosmic"⟩).y ∧
      ((updateParticle {} 100 100)^[3] ⟨50, 50, 60, 0, 2, 1, 1 / 1000, "", "cosmic"⟩).y ≤ 100) :=
  ⟨⟨by norm_num, by norm_num, by decide!, by norm_num, by norm_num, by norm_num, by norm_num⟩,
    updateParticle_contained {} 100 100 (by norm_num) (by norm_num) (by decide!)
      ⟨50, 50, 60, 0, 2, 1, 1 / 1000, "", "cosmic"⟩
      ⟨by norm_num, by norm_num, by norm_num, by norm_num⟩ 3⟩

/-- The closed form of one `forEach` step of `applyForce`: it never divides by zero,
and it changes the particle only inside the guard `0 < distance < radius`. -/
theorem applyForceTo_eq (sqrt : ℚ → ℚ) (force : Force) (p : Particle) :
    applyForceTo sqrt force p =
      some
        (if sqrt ((force.x - p.x) * (force.x - p.x) + (force.y - p.y) * (force.y - p.y)) <
              force.radius ∧
            sqrt ((force.x - p.x) * (force.x - p.x) + (force.y - p.y) * (force.y - p.y)) > 0
         then
          (if force.type = "attract" then
            { p with
              vx := p.vx + (force.x - p.x) /
                  sqrt ((force.x - p.x) * (force.x - p.x) + (force.y - p.y) * (force.y - p.y)) *
                force.strength *
                ((force.radius -
                  sqrt ((force.x - p.x) * (force.x - p.x) + (force.y - p.y) * (force.y - p.y))) /
                  force.radius) * (1 / 10)
              vy := p.vy + (force.y - p.y) /
                  sqrt ((force.x - p.x) * (force.x - p.x) + (force.y - p.y) * (force.y - p.y)) *
                force.strength *
                ((force.radius -
                  sqrt ((force.x - p.x) * (force.x - p.x) + (force.y - p.y) * (force.y - p.y))) /
                  force.radius) * (1 / 10) }
           else if force.type = "repel" then
            { p with
              vx := p.vx - (force.x - p.x) /
                  sqrt ((force.x - p.x) * (force.x - p.x) + (force.y - p.y) * (force.y - p.y)) *
                force.strength *
                ((force.radius -
                  sqrt ((force.x - p.x) * (force.x - p.x) + (force.y - p.y) * (force.y - p.y))) /
                  force.radius) * (1 / 10)
              vy := p.vy - (force.y - p.y) /
                  sqrt ((force.x - p.x) * (force.x - p.x) + (force.y - p.y) * (force.y - p.y)) *
                force.strength *
                ((force.radius -
                  sqrt ((force.x - p.x) * (force.x - p.x) + (force.y - p.y) * (force.y - p.y))) /
                  force.radius) * (1 / 10) }
           else p)
         else p) := by
  unfold applyForceTo
  dsimp only
  generalize sqrt ((force.x - p.x) * (force.x - p.x) + (force.y - p.y) * (force.y - p.y)) = d
  by_cases hg : d < force.radius ∧ d > 0
  · have hd : d ≠ 0 := ne_of_gt hg.2
    have hR : force.radius ≠ 0 := ne_of_gt (lt_trans hg.2 hg.1)
    simp only [hg, and_self, if_true, checkedDiv, hd, hR, if_false, Option.bind_eq_bind,
      Option.some_bind, Option.pure_def]
    split_ifs <;> rfl
  · simp only [hg, if_false, Option.pure_def]

/-- The loop over the particles never fails and treats each particle on its own. -/
theorem applyForceEach_spec (sqrt : ℚ → ℚ) (force : Force) (particles : List Particle) :
    ∃ out : List Particle, applyForceEach sqrt force particles = some out ∧
      out.length = particles.length ∧
      ∀ (i : ℕ) (p : Particle), particles[i]? = some p → out[i]? = applyForceTo sqrt force p := by
  induction particles with
  | nil => exact ⟨[], rfl, rfl, by intro i p h; simp at h⟩
  | cons a t ih =>
    obtain ⟨out, h1, h2, h3⟩ := ih
    obtain ⟨a', ha⟩ : ∃ a', applyForceTo sqrt force a = some a' :=
      ⟨_, applyForceTo_eq sqrt force a⟩
    refine ⟨a' :: out, ?_, ?_, ?_⟩
    · simp only [applyForceEach, ha, h1, Option.bind_eq_bind, Option.some_bind,
        Option.pure_def]
    · simp [h2]
    · intro i p hi
      cases i with
      | zero =>
        simp only [List.getElem?_cons_zero, Option.some.injEq] at hi
        subst hi
        simp only [List.getElem?_cons_zero]
        exact ha.symm
      | succ n =>
        simp only [List.getElem?_cons_succ] at hi ⊢
        exact h3 n p hi

theorem applyForce_spec (sqrt : ℚ → ℚ) (force : Force) (particles : List Particle) :
    ∃ out : List Particle, applyForce sqrt force particles = some out ∧
      out.length = particles.length ∧
      ∀ (i : ℕ) (p : Particle), particles[i]? = some p →
        out[i]? = (if force.active = true then applyForceTo sqrt force p else some p) := by
  cases hact : force.active with
  | false =>
    refine ⟨particles, by simp [applyForce, hact], rfl, ?_⟩
    intro i p hi
    simp [hi]
  | true =>
    obtain ⟨out, h1, h2, h3⟩ := applyForceEach_spec sqrt force particles
    refine ⟨out, by simp [applyForce, hact, h1], h2, ?_⟩
    intro i p hi
    simp [h3 i p hi]

/-- C11 (zero-distance guard). For every force (any strength, radius and type, active or
not) and every list of particles, `applyForce` never divides by zero (it returns a
result), whatever `Math.sqrt` returns; when `Math.sqrt(0)` is `0`, a particle located
exactly at the force's position is left unchanged, velocity included; and
`resolveCollision` leaves two particles with identical positions unchanged. -/
theorem zero_distance_guard (sqrt : ℚ → ℚ) (hsqrt : sqrt 0 = 0) (force : Force)
    (particles : List Particle) (p1 p2 : PhysicsEngine.Particle) :
    (∃ out : List Particle, applyForce sqrt force particles = some out ∧
      out.length = particles.length ∧
      ∀ (i : ℕ) (p : Particle), particles[i]? = some p → p.x = force.x → p.y = force.y →
        out[i]? = some p) ∧
    (p1.x = p2.x → p1.y = p2.y →
      PhysicsEngine.resolveCollision sqrt p1 p2 = some (p1, p2)) := by
  constructor
  · obtain ⟨out, h1, h2, h3⟩ := applyForce_spec sqrt force particles
    refine ⟨out, h1, h2, ?_⟩
    intro i p hi hx hy
    rw [h3 i p hi]
    split
    · rw [applyForceTo_eq, hx, hy]
      simp [hsqrt]
    · rfl
  · intro hx hy
    simp [PhysicsEngine.resolveCollision, hx, hy, hsqrt]

/-- C11, an instance with the rational square root of Mathlib: a repelling force of
radius 0 at (1, 1) leaves the particle at (1, 1) unchanged, and two colliding particles
at the same place keep their velocities. -/
theorem zero_distance_guard_witness :
    Rat.sqrt 0 = 0 ∧
    (∃ out : List Particle,
      applyForce Rat.sqrt ⟨1, 1, 5, 0, "repel", true⟩
          [⟨1, 1, 2, 3, 2, 1, 1 / 1000, "", "cosmic"⟩] = some out ∧
        out[0]? = some ⟨1, 1, 2, 3, 2, 1, 1 / 1000, "", "cosmic"⟩) ∧
    PhysicsEngine.resolveCollision Rat.sqrt ⟨1, 1, 2, 0, 1, 1⟩ ⟨1, 1, -2, 0, 1, 1⟩ =
      some (⟨1, 1, 2, 0, 1, 1⟩, ⟨1, 1, -2, 0, 1, 1⟩) := by
  have h := zero_distance_guard Rat.sqrt (by decide!) ⟨1, 1, 5, 0, "repel", true⟩
    [⟨1, 1, 2, 3, 2, 1, 1 / 1000, "", "cosmic"⟩] ⟨1, 1, 2, 0, 1, 1⟩ ⟨1, 1, -2, 0, 1, 1⟩
  obtain ⟨⟨out, h1, _, h3⟩, h4⟩ := h
  exact ⟨by decide!, ⟨out, h1, h3 0 _ rfl rfl rfl⟩, h4 rfl rfl⟩

/-- C12 (force-field impulse). For an active force with position `F`, strength `S` and
radius `R`, and the particle at index `i` of the field, at distance `d` from `F` (as
`Math.sqrt` returns it): `applyForce` returns (divides by nothing zero) and leaves the
particle's position and every field other than its velocity unchanged; when
`0 < d < R` its velocity changes by `0.1 * S * (1 - d/R)` times the direction
`((F.x - x)/d, (F.y - y)/d)`, added for type 'attract' and subtracted for type 'repel';
when `d ≥ R` the particle is unchanged; and that direction has length 1 whenever `d` is
the exact distance. -/
theorem applyForce_impulse (sqrt : ℚ → ℚ) (force : Force) (hactive : force.active = true)
    (particles : List Particle) (i : ℕ) (p : Particle) (hp : particles[i]? = some p)
    (d : ℚ)
    (hd : d = sqrt ((force.x - p.x) * (force.x - p.x) + (force.y - p.y) * (force.y - p.y))) :
    ∃ (out : List Particle) (q : Particle),
      applyForce sqrt force particles = some out ∧ out[i]? = some q ∧
      q.x = p.x ∧ q.y = p.y ∧ q = { p with vx := q.vx, vy := q.vy } ∧
      (0 < d → d < force.radius → force.type = "attract" →
        q.vx = p.vx + 1 / 10 * (force.strength * (1 - d / force.radius)) *
          ((force.x - p.x) / d) ∧
        q.vy = p.vy + 1 / 10 * (force.strength * (1 - d / force.radius)) *
          ((force.y - p.y) / d)) ∧
      (0 < d → d < force.radius → force.type = "repel" →
        q.vx = p.vx - 1 / 10 * (force.strength * (1 - d / force.radius)) *
          ((force.x - p.x) / d) ∧
        q.vy = p.vy - 1 / 10 * (force.strength * (1 - d / force.radius)) *
          ((force.y - p.y) / d)) ∧
      (force.radius ≤ d → q = p) ∧
      (0 < d → d * d = (force.x - p.x) * (force.x - p.x) + (force.y - p.y) * (force.y - p.y) →
        ((force.x - p.x) / d) ^ 2 + ((force.y - p.y) / d) ^ 2 = 1) := by
  obtain ⟨out, h1, _, h3⟩ := applyForce_spec sqrt force particles
  have hq := h3 i p hp
  rw [if_pos hactive, applyForceTo_eq, ← hd] at hq
  have hunit : 0 < d →
      d * d = (force.x - p.x) * (force.x - p.x) + (force.y - p.y) * (force.y - p.y) →
      ((force.x - p.x) / d) ^ 2 + ((force.y - p.y) / d) ^ 2 = 1 := by
    intro h0 hsq
    have hd0 : d ≠ 0 := ne_of_gt h0
    field_simp
    nlinarith [hsq]
  have hne : ¬ ("attract" : String) = "repel" := by decide
  by_cases hg : d < force.radius ∧ d > 0
  · have hd0 : d ≠ 0 := ne_of_gt hg.2
    have hR0 : force.radius ≠ 0 := ne_of_gt (lt_trans hg.2 hg.1)
    by_cases ha : force.type = "attract"
    · rw [if_pos hg, if_pos ha] at hq
      refine ⟨out, _, h1, hq, rfl, rfl, rfl, ?_, ?_, ?_, hunit⟩
      · intro _ _ _
        constructor
        · show p.vx + (force.x - p.x) / d * force.strength *
              ((force.radius - d) / force.radius) * (1 / 10) = _
          field_simp
          ring
        · show p.vy + (force.y - p.y) / d * force.strength *
              ((force.radius - d) / force.radius) * (1 / 10) = _
          field_simp
          ring
      · intro _ _ ht
        exact absurd (ha.symm.trans ht) hne
      · intro hge
        exact absurd hg.1 (not_lt.2 hge)
    · by_cases hr : force.type = "repel"
      · rw [if_pos hg, if_neg ha, if_pos hr] at hq
        refine ⟨out, _, h1, hq, rfl, rfl, rfl, ?_, ?_, ?_, hunit⟩
        · intro _ _ ht
          exact absurd ht ha
        · intro _ _ _
          constructor
          · show p.vx - (force.x - p.x) / d * force.strength *
                ((force.radius - d) / force.radius) * (1 / 10) = _
            field_simp
            ring
          · show p.vy - (force.y - p.y) / d * force.strength *
                ((force.radius - d) / force.radius) * (1 / 10) = _
            field_simp
            ring
        · intro hge
          exact absurd hg.1 (not_lt.2 hge)
      · rw [if_pos hg, if_neg ha, if_neg hr] at hq
        refine ⟨out, p, h1, hq, rfl, rfl, rfl, ?_, ?_, ?_, hunit⟩
        · intro _ _ ht
          exact absurd ht ha
        · intro _ _ ht
          exact absurd ht hr
        · intro _
          rfl
  · rw [if_neg hg] at hq
    refine ⟨out, p, h1, hq, rfl, rfl, rfl, ?_, ?_, ?_, hunit⟩
    · intro h0 hR _
      exact absurd ⟨hR, h0⟩ hg
    · intro h0 hR _
      exact absurd ⟨hR, h0⟩ hg
    · intro _
      rfl

/-- C12, an instance with the rational square root of Mathlib: an attracting force of
strength 2 and radius 10 at (3, 4) acts on a particle at rest at the origin, at
distance 5. -/
theorem applyForce_impulse_witness :
    ((⟨3, 4, 2, 10, "attract", true⟩ : Force).active = true ∧
      [(⟨0, 0, 0, 0, 2, 1, 1 / 1000, "", "cosmic"⟩ : Particle)][0]? =
        some ⟨0, 0, 0, 0, 2, 1, 1 / 1000, "", "cosmic"⟩ ∧
      (5 : ℚ) = Rat.sqrt ((3 - 0) * (3 - 0) + (4 - 0) * (4 - 0))) ∧
    ∃ (out : List Particle) (q : Particle),
      applyForce Rat.sqrt ⟨3, 4, 2, 10, "attract", true⟩
        [⟨0, 0, 0, 0, 2, 1, 1 / 1000, "", "cosmic"⟩] = some out ∧
      out[0]? = some q ∧
      q.vx = 0 + 1 / 10 * (2 * (1 - 5 / 10)) * ((3 - 0) / 5) ∧
      q.vy = 0 + 1 / 10 * (2 * (1 - 5 / 10)) * ((4 - 0) / 5) := by
  obtain ⟨out, q, h1, h2, _, _, _, h6, _⟩ :=
    applyForce_impulse Rat.sqrt ⟨3, 4, 2, 10, "attract", true⟩ rfl
      [⟨0, 0, 0, 0, 2, 1, 1 / 1000, "", "cosmic"⟩] 0
      ⟨0, 0, 0, 0, 2, 1, 1 / 1000, "", "cosmic"⟩ rfl 5 (by decide!)
  exact ⟨⟨rfl, rfl, by decide!⟩, out, q, h1, h2, h6 (by norm_num) (by norm_num) rfl⟩

theorem updateFrom_length (options : Options) (width height : ℚ)
    (createParticle : ℕ → Particle) (remaining index : ℕ) (particles : List Particle)
    (created : ℕ) :
    (updateFrom options width height createParticle index remaining particles created).1.length
      = particles.length := by
  induction remaining generalizing index particles created with
  | zero => rfl
  | succ n ih =>
    unfold updateFrom
    cases hp : particles[index]? with
    | none => exact ih _ _ _
    | some particle =>
      have hlt : index < particles.length := by
        rcases List.getElem?_eq_some.1 hp with ⟨h, _⟩
        exact h
      simp only
      split
      · rw [ih]
        simp only [List.length_append, List.length_singleton, List.length_eraseIdx,
          List.length_set, hlt, if_true]
        omega
      · rw [ih, List.length_set]

/-- C22 (constant particle count). For every list of particles, every options record,
every canvas size and whatever particles `createParticle` returns, the particle-update
pass of one `animate` frame leaves as many particles in the field as it found: each
removal by `splice` is followed by one `push` of a fresh particle. -/
theorem updatePass_length (options : Options) (width height : ℚ)
    (createParticle : ℕ → Particle) (particles : List Particle) :
    (updatePass options width height createParticle particles).1.length = particles.length :=
  updateFrom_length options width height createParticle particles.length 0 particles 0

/-- C30, at the failing input: a field of two particles in which the first expires in
this frame. The pass removes the first one, which moves the second one to index 0, an
index already visited: the second particle is left as it was (its life is still 1, not
1 - 1/1000), and the fresh particle pushed at the end is advanced instead. -/
theorem updatePass_skips_next :
    (updatePass {} 100 100 sampleFresh
      [⟨50, 50, 0, 0, 2, 1 / 1000, 1 / 1000, "", "cosmic"⟩,
       ⟨10, 10, 0, 0, 2, 1, 1 / 1000, "", "cosmic"⟩]).1 =
      [⟨10, 10, 0, 0, 2, 1, 1 / 1000, "", "cosmic"⟩,
       updateParticle {} 100 100 (sampleFresh 0)] := by
  decide!

/-- C28, at the failing input `pause()` then `resume()` before the queued frame fires:
two `animate` callbacks are pending, and after the host has fired both there are still
two (and the same happens after a `resume()` without any `pause()`). -/
theorem resume_doubles_loop :
    (Scheduler.resume (Scheduler.pause Scheduler.construct)).pending = 2 ∧
    (Scheduler.fire (Scheduler.fire
      (Scheduler.resume (Scheduler.pause Scheduler.construct)))).pending = 2 ∧
    (Scheduler.resume Scheduler.construct).pending = 2 := by
  decide

end ParticleSystem

/-! ## Theorems: AdvancedAnimations -/

namespace AdvancedAnimations

theorem scheduled_init : Stage.init.Scheduled :=
  ⟨⟨le_refl 1, fun fr h => by simp [Stage.init] at h⟩,
    fun fr h => by simp [Stage.init] at h, fun fr h => by simp [Stage.init] at h⟩

/-- Running `animate` for an effect that has no other queued callback keeps the
scheduling invariant, provided the effect is (or is about to be) entered. -/
theorem scheduled_animate (s : Stage) (id : String) (entered : String → Bool)
    (hs : s.Scheduled) (hnone : ∀ fr ∈ s.pending, fr.effect ≠ id)
    (hid : entered id = true) (hother : ∀ k, k ≠ id → entered k = s.animations k) :
    ({ animate s id with animations := entered } : Stage).Scheduled := by
  obtain ⟨⟨hn, hpos⟩, hst, hen⟩ := hs
  refine ⟨⟨?_, ?_⟩, ?_, ?_⟩
  · show 1 ≤ s.nextHandle + 1
    omega
  · intro fr hfr
    have hfr : fr ∈ s.pending ++ [{ handle := s.nextHandle, effect := id }] := hfr
    rcases List.mem_append.1 hfr with h | h
    · exact hpos fr h
    · simp only [List.mem_singleton] at h
      subst h
      show s.nextHandle ≠ 0
      omega
  · intro fr hfr
    have hfr : fr ∈ s.pending ++ [{ handle := s.nextHandle, effect := id }] := hfr
    show (if fr.effect = id then some s.nextHandle else s.animationFrames fr.effect) =
      some fr.handle
    rcases List.mem_append.1 hfr with h | h
    · rw [if_neg (hnone fr h)]
      exact hst fr h
    · simp only [List.mem_singleton] at h
      subst h
      simp
  · intro fr hfr
    have hfr : fr ∈ s.pending ++ [{ handle := s.nextHandle, effect := id }] := hfr
    show entered fr.effect = true
    rcases List.mem_append.1 hfr with h | h
    · rw [hother _ (hnone fr h)]
      exact hen fr h
    · simp only [List.mem_singleton] at h
      subst h
      exact hid

theorem scheduled_create (s : Stage) (id : String) (found : Bool) (hs : s.Scheduled)
    (hfresh : s.animations id = false) : (create s id found).Scheduled := by
  cases found with
  | false => exact hs
  | true =>
    have hnone : ∀ fr ∈ s.pending, fr.effect ≠ id := by
      intro fr hfr he
      have := hs.entered fr hfr
      rw [he, hfresh] at this
      cases this
    have h := scheduled_animate s id (fun k => if k = id then true else s.animations k) hs
      hnone (by simp) (fun k hk => by simp [hk])
    exact h

theorem scheduled_fire (s : Stage) (handle : ℕ) (hs : s.Scheduled) :
    (fire s handle).Scheduled := by
  unfold fire
  cases hf : s.pending.find? (fun fr => fr.handle == handle) with
  | none => exact hs
  | some fr =>
    have hmem : fr ∈ s.pending := List.mem_of_find?_eq_some hf
    have hh : fr.handle = handle := by
      have := List.find?_some hf
      simpa using this
    have hs' : ({ s with pending := s.pending.filter (fun fr => fr.handle != handle) } :
        Stage).Scheduled := by
      refine ⟨⟨hs.handlePos.1, ?_⟩, ?_, ?_⟩
      · intro x hx
        exact hs.handlePos.2 x (List.mem_of_mem_filter hx)
      · intro x hx
        exact hs.stored x (List.mem_of_mem_filter hx)
      · intro x hx
        exact hs.entered x (List.mem_of_mem_filter hx)
    have hnone : ∀ x ∈ s.pending.filter (fun fr => fr.handle != handle),
        x.effect ≠ fr.effect := by
      intro x hx he
      have hxm := List.mem_of_mem_filter hx
      have h1 := hs.stored x hxm
      have h2 := hs.stored fr hmem
      rw [he, h2] at h1
      have hxh : x.handle = handle := by
        simp only [Option.some.injEq] at h1
        rw [← h1, hh]
      have := (List.mem_filter.1 hx).2
      simp [hxh] at this
    have h := scheduled_animate _ fr.effect s.animations hs' hnone (hs.entered fr hmem)
      (fun k _ => rfl)
    exact h

/-- After `stop(id)` the scheduling invariant still holds and no queued callback belongs
to the stopped effect. -/
theorem scheduled_stop (s : Stage) (id : String) (hs : s.Scheduled) :
    (stop s id).Scheduled ∧ ∀ fr ∈ (stop s id).pending, fr.effect ≠ id := by
  have key : ∃ s1 : Stage, stop s id =
      { s1 with animations := fun k => if k = id then false else s1.animations k } ∧
      s1.nextHandle = s.nextHandle ∧
      (∀ fr ∈ s1.pending, fr ∈ s.pending ∧ fr.effect ≠ id) ∧
      (∀ k, k ≠ id → s1.animationFrames k = s.animationFrames k) ∧
      s1.animations = s.animations := by
    unfold stop
    cases hf : s.animationFrames id with
    | none =>
      refine ⟨s, rfl, rfl, ?_, fun _ _ => rfl, rfl⟩
      intro fr hfr
      refine ⟨hfr, fun he => ?_⟩
      have := hs.stored fr hfr
      rw [he, hf] at this
      cases this
    | some f =>
      by_cases h0 : f = 0
      · subst h0
        refine ⟨s, by simp, rfl, ?_, fun _ _ => rfl, rfl⟩
        intro fr hfr
        refine ⟨hfr, fun he => ?_⟩
        have := hs.stored fr hfr
        rw [he, hf] at this
        simp only [Option.some.injEq] at this
        exact hs.handlePos.2 fr hfr this.symm
      · refine ⟨{ s with
            pending := s.pending.filter (fun fr => fr.handle != f)
            animationFrames := fun k => if k = id then none else s.animationFrames k },
          by simp [h0], rfl, ?_, fun k hk => by simp [hk], rfl⟩
        intro fr hfr
        have hfr : fr ∈ s.pending.filter (fun fr => fr.handle != f) := hfr
        have hm := List.mem_of_mem_filter hfr
        refine ⟨hm, fun he => ?_⟩
        have h1 := hs.stored fr hm
        rw [he, hf] at h1
        simp only [Option.some.injEq] at h1
        have := (List.mem_filter.1 hfr).2
        simp [h1] at this
  obtain ⟨s1, h1, h2, h3, h4, h5⟩ := key
  rw [h1]
  refine ⟨⟨⟨?_, ?_⟩, ?_, ?_⟩, ?_⟩
  · show 1 ≤ s1.nextHandle
    rw [h2]; exact hs.handlePos.1
  · intro fr hfr
    exact hs.handlePos.2 fr (h3 fr hfr).1
  · intro fr hfr
    show s1.animationFrames fr.effect = some fr.handle
    rw [h4 _ (h3 fr hfr).2]
    exact hs.stored fr (h3 fr hfr).1
  · intro fr hfr
    show (if fr.effect = id then false else s1.animations fr.effect) = true
    rw [if_neg (h3 fr hfr).2, h5]
    exact hs.entered fr (h3 fr hfr).1
  · intro fr hfr
    exact (h3 fr hfr).2

theorem scheduled_run (events : List Event) (s : Stage) (hs : s.Scheduled)
    (hfresh : startsFresh s events = true) : (runEvents s events).Scheduled := by
  induction events generalizing s with
  | nil => exact hs
  | cons e rest ih =>
    have hrun : runEvents s (e :: rest) = runEvents (stepEvent s e) rest := rfl
    rw [hrun]
    cases e with
    | create id found =>
      simp only [startsFresh, Bool.and_eq_true, Bool.not_eq_true'] at hfresh
      exact ih _ (scheduled_create s id found hs hfresh.1) hfresh.2
    | fire handle =>
      exact ih _ (scheduled_fire s handle hs) hfresh
    | stop id =>
      exact ih _ (scheduled_stop s id hs).1 hfresh

/-- C15, as stated, fails: after `createSpiralGalaxy('galaxy')` and `stop('galaxy')`,
the effect's frame callback `animate`, if it still runs, clears and paints the canvas
again and queues another frame: it has no guard of its own. -/
theorem animate_after_stop_mutates :
    ¬ ∀ (s : Stage) (id : String), s.animations id = true →
        (animate (stop s id) id).drawLog = (stop s id).drawLog ∧
        (animate (stop s id) id).pending = (stop s id).pending := by
  intro h
  have h1 := (h (create Stage.init "galaxy" true) "galaxy" (by decide)).1
  revert h1
  decide

/-- C15, amended. When effects are started only on container ids that have no running
effect, and `stop(id)` is called between frames: after `stop(id)` no queued frame
callback belongs to the stopped effect (`cancelAnimationFrame` removed it), so whatever
callback the host fires next, no frame of the stopped effect is drawn. -/
theorem stop_cancels_queued_frame (events : List Event)
    (hfresh : startsFresh Stage.init events = true) (id : String) (handle : ℕ) :
    (∀ fr ∈ (stop (runEvents Stage.init events) id).pending, fr.effect ≠ id) ∧
    ((fire (stop (runEvents Stage.init events) id) handle).drawLog =
        (stop (runEvents Stage.init events) id).drawLog ∨
      ∃ e, e ≠ id ∧
        (fire (stop (runEvents Stage.init events) id) handle).drawLog =
          (stop (runEvents Stage.init events) id).drawLog ++ [e]) := by
  have hs := scheduled_run events Stage.init scheduled_init hfresh
  have hstop := scheduled_stop (runEvents Stage.init events) id hs
  refine ⟨hstop.2, ?_⟩
  unfold fire
  cases hf : (stop (runEvents Stage.init events) id).pending.find?
      (fun fr => fr.handle == handle) with
  | none => exact Or.inl rfl
  | some fr =>
    right
    exact ⟨fr.effect, hstop.2 fr (List.mem_of_find?_eq_some hf), rfl⟩

/-- C15 amended, an instance: an effect on 'galaxy' runs two frames and is stopped; its
third frame callback (handle 3) was cancelled, and firing it draws nothing. -/
theorem stop_cancels_queued_frame_witness :
    startsFresh Stage.init [.create "galaxy" true, .fire 1, .fire 2] = true ∧
    (∀ fr ∈ (stop (runEvents Stage.init [.create "galaxy" true, .fire 1, .fire 2])
        "galaxy").pending, fr.effect ≠ "galaxy") ∧
    ((fire (stop (runEvents Stage.init [.create "galaxy" true, .fire 1, .fire 2]) "galaxy")
          3).drawLog =
        (stop (runEvents Stage.init [.create "galaxy" true, .fire 1, .fire 2])
          "galaxy").drawLog ∨
      ∃ e, e ≠ "galaxy" ∧
        (fire (stop (runEvents Stage.init [.create "galaxy" true, .fire 1, .fire 2]) "galaxy")
            3).drawLog =
          (stop (runEvents Stage.init [.create "galaxy" true, .fire 1, .fire 2])
            "galaxy").drawLog ++ [e]) :=
  ⟨by decide,
    stop_cancels_queued_frame [.create "galaxy" true, .fire 1, .fire 2] (by decide)
      "galaxy" 3⟩

end AdvancedAnimations
